import Mathlib

/-!
Shallow embedding of the cache engine of timeax/cache-store
(src/cache/create-cache.ts) together with its TTL policy (src/cache/ttl.ts).

Modelling conventions:
  * JS `Map`s are insertion-ordered association lists with unique keys
    (`List (String × α)`); `Map.set` updates in place or appends,
    `Map.delete` removes the entry with the given key.
  * Wall-clock time (`now()`) is passed explicitly as a `Nat` millisecond
    stamp to every operation that reads the clock.
  * The JS value domain is `Option Nat`: `none` plays the role of
    `undefined` (which is a storable value in JS), `some n` any other value.
  * TTLs are `Option Int` (`none` = the `ttlMs` field is absent/undefined;
    JS numbers may be negative or zero).
  * Fire-and-forget driver calls and notification deliveries are recorded
    as an event trace (`Ev`); listener callbacks themselves are opaque.
  * The readiness promise is modelled by `settled : Option Bool`
    (`some true` = resolved, `some false` = rejected); a JS promise keeps
    its first settlement, see `promiseSettle`.
-/

/-- A stored cache entry: types.ts CacheEntry / create-cache.ts makeEntry. -/
structure CacheEntry where
  value : Option Nat
  createdAt : Nat
  ttlMs : Option Int
deriving DecidableEq, Repr

/-- ttl.ts isAlive: a falsy ttlMs (absent or 0) never expires; otherwise the
entry is alive iff now - createdAt < ttlMs. -/
def isAlive (t : Nat) (e : CacheEntry) : Bool :=
  match e.ttlMs with
  | none => true
  | some ttl => if ttl = 0 then true else decide ((t : Int) - (e.createdAt : Int) < ttl)

/-- JS Map.get on an association list. -/
def mapGet {α : Type} : List (String × α) → String → Option α
  | [], _ => none
  | (k', v) :: rest, k => if k' = k then some v else mapGet rest k

/-- JS Map.set: update the existing entry in place, else append. -/
def mapSet {α : Type} : List (String × α) → String → α → List (String × α)
  | [], k, v => [(k, v)]
  | (k', v') :: rest, k, v =>
    if k' = k then (k, v) :: rest else (k', v') :: mapSet rest k v

/-- JS Map.delete (keys are unique, so removing every match removes one). -/
def mapDelete {α : Type} : List (String × α) → String → List (String × α)
  | [], _ => []
  | (k', v) :: rest, k =>
    if k' = k then mapDelete rest k else (k', v) :: mapDelete rest k

/-- A keys() cache entry: create-cache.ts KeyListCache. -/
structure KeyListCache where
  keys : List String
  valid : Bool
deriving DecidableEq, Repr

/-- Which optional bulk operations the configured driver provides. -/
structure DriverCaps where
  hasGetMany : Bool
  hasRemoveMany : Bool
  hasClearPfx : Bool
deriving DecidableEq, Repr

/-- Observable effects: notification deliveries and fire-and-forget driver
calls issued by the engine. -/
inductive Ev where
  | emit (k : String)
  | emitReady
  | drvSet (k : String)
  | drvRemove (k : String)
  | drvRemoveMany (ks : List String)
  | drvClearPfx (p : String)
deriving DecidableEq, Repr

/-- The entire mutable state owned by one createCache instance. -/
structure CacheState where
  caps : DriverCaps
  mirror : List (String × CacheEntry)
  keyListeners : List (String × List Nat)
  prefixListeners : List (String × List Nat)
  allListeners : List Nat
  readyListeners : List Nat
  batchDepth : Nat
  pendingKeys : List String
  pendingReadyEmit : Bool
  ready : Bool
  settled : Option Bool
  allKeysCache : KeyListCache
  prefixKeysCache : List (String × KeyListCache)
deriving DecidableEq, Repr

/-- create-cache.ts invalidateAllKeysCache. -/
def invalidateAllKeysCache (s : CacheState) : CacheState :=
  { s with allKeysCache := { s.allKeysCache with valid := false } }

/-- create-cache.ts invalidatePrefixCachesForKey: every cached prefix that is
a prefix of the key becomes invalid. -/
def invalidatePrefixCachesForKey (k : String) (s : CacheState) : CacheState :=
  { s with prefixKeysCache := (s.prefixKeysCache.map
      (fun pc => if k.startsWith pc.1 then (pc.1, { pc.2 with valid := false }) else pc)) }

/-- create-cache.ts invalidatePrefixCache: invalidate one prefix cache entry
when present. -/
def invalidatePfxCacheOne (p : String) (s : CacheState) : CacheState :=
  { s with prefixKeysCache := (s.prefixKeysCache.map
      (fun pc => if pc.1 = p then (pc.1, { pc.2 with valid := false }) else pc)) }

/-- create-cache.ts invalidateKeyCachesForMutation. -/
def invalidateKeyCachesForMutation (k : String) (s : CacheState) : CacheState :=
  invalidatePrefixCachesForKey k (invalidateAllKeysCache s)

/-- JS Set.add on the insertion-ordered pending set. -/
def pendingAdd (l : List String) (k : String) : List String :=
  if k ∈ l then l else l ++ [k]

/-- create-cache.ts queueEmitKey: defer inside a batch, else deliver now. -/
def queueEmitKey (k : String) (s : CacheState) : CacheState × List Ev :=
  if 0 < s.batchDepth then ({ s with pendingKeys := pendingAdd s.pendingKeys k }, [])
  else (s, [Ev.emit k])

/-- create-cache.ts queueEmitReady. -/
def queueEmitReady (s : CacheState) : CacheState × List Ev :=
  if 0 < s.batchDepth then ({ s with pendingReadyEmit := true }, [])
  else (s, [Ev.emitReady])

/-- create-cache.ts dropKey: silent TTL eviction — mirror delete, best-effort
driver delete, derived-cache invalidation, no notification. -/
def dropKey (k : String) (s : CacheState) : CacheState × List Ev :=
  (invalidateKeyCachesForMutation k { s with mirror := mapDelete s.mirror k },
   [Ev.drvRemove k])

/-- True when the supplied ttl is a number that is <= 0 (the
`entry.ttlMs !== undefined && entry.ttlMs <= 0` test in setInternal). -/
def ttlNonPos : Option Int → Bool
  | some x => decide (x ≤ 0)
  | none => false

/-- create-cache.ts setInternal: null entry or non-positive ttl means
removal; otherwise install the entry, persist, invalidate and notify. -/
def setInternal (k : String) (entry : Option CacheEntry) (s : CacheState) :
    CacheState × List Ev :=
  match entry with
  | none =>
      let s1 := invalidateKeyCachesForMutation k { s with mirror := mapDelete s.mirror k }
      let r := queueEmitKey k s1
      (r.1, Ev.drvRemove k :: r.2)
  | some e =>
      if ttlNonPos e.ttlMs then
        let s1 := invalidateKeyCachesForMutation k { s with mirror := mapDelete s.mirror k }
        let r := queueEmitKey k s1
        (r.1, Ev.drvRemove k :: r.2)
      else
        let s1 := invalidateKeyCachesForMutation k { s with mirror := mapSet s.mirror k e }
        let r := queueEmitKey k s1
        (r.1, Ev.drvSet k :: r.2)

/-- create-cache.ts getEntry: read the mirror, lazily evicting a dead entry. -/
def getEntry (t : Nat) (k : String) (s : CacheState) :
    Option CacheEntry × CacheState × List Ev :=
  match mapGet s.mirror k with
  | none => (none, s, [])
  | some e =>
      if isAlive t e then (some e, s, [])
      else
        let r := dropKey k s
        (none, r.1, r.2)

/-- create-cache.ts pruneListInPlace: scan a cached key list in its own
order, evict dead entries, keep survivors in the original relative order. -/
def pruneListInPlace (t : Nat) : List String → CacheState → List String × CacheState × List Ev
  | [], s => ([], s, [])
  | k :: rest, s =>
    match mapGet s.mirror k with
    | none =>
        let s1 := invalidateKeyCachesForMutation k s
        let r := pruneListInPlace t rest s1
        (r.1, r.2.1, r.2.2)
    | some e =>
        if isAlive t e then
          let r := pruneListInPlace t rest s
          (k :: r.1, r.2.1, r.2.2)
        else
          let d := dropKey k s
          let r := pruneListInPlace t rest d.1
          (r.1, r.2.1, d.2 ++ r.2.2)

/-- The `prefix && !k.startsWith(prefix)` skip test of computeKeysForPrefix:
a falsy prefix (absent or empty) matches everything — and startsWith with an
empty string is true anyway, so the empty case needs no special treatment. -/
def matchesPfx : Option String → String → Bool
  | none, _ => true
  | some p, k => k.startsWith p

/-- The loop body of create-cache.ts computeKeysForPrefix: iterate a snapshot
of the mirror, drop dead matching entries, collect live matching keys. -/
def computeKeysLoop (t : Nat) (pfx : Option String) :
    List (String × CacheEntry) → CacheState → List String × CacheState × List Ev
  | [], s => ([], s, [])
  | (k, e) :: rest, s =>
    if matchesPfx pfx k = false then computeKeysLoop t pfx rest s
    else if isAlive t e then
      let r := computeKeysLoop t pfx rest s
      (k :: r.1, r.2.1, r.2.2)
    else
      let d := dropKey k s
      let r := computeKeysLoop t pfx rest d.1
      (r.1, r.2.1, d.2 ++ r.2.2)

/-- create-cache.ts computeKeysForPrefix, iterating Array.from(mirror). -/
def computeKeysForPfx (t : Nat) (pfx : Option String) (s : CacheState) :
    List String × CacheState × List Ev :=
  computeKeysLoop t pfx s.mirror s

/-- The all-keys branch of create-cache.ts getCachedKeys. -/
def getCachedKeysAll (t : Nat) (s : CacheState) : List String × CacheState × List Ev :=
  if s.allKeysCache.valid = false then
    let r := computeKeysForPfx t none s
    (r.1, { r.2.1 with allKeysCache := { keys := r.1, valid := true } }, r.2.2)
  else
    let r := pruneListInPlace t s.allKeysCache.keys s
    (r.1, { r.2.1 with allKeysCache := { r.2.1.allKeysCache with keys := r.1 } }, r.2.2)

/-- The prefix branch of create-cache.ts getCachedKeys.  A missing cache
object is inserted invalid first; afterwards the computed or pruned list is
written through the aliased cache object. -/
def getCachedKeysPfx (t : Nat) (p : String) (s : CacheState) :
    List String × CacheState × List Ev :=
  match mapGet s.prefixKeysCache p with
  | none =>
      let s0 := { s with prefixKeysCache :=
        (mapSet s.prefixKeysCache p { keys := [], valid := false }) }
      let r := computeKeysForPfx t (some p) s0
      (r.1, { r.2.1 with prefixKeysCache :=
        (mapSet r.2.1.prefixKeysCache p { keys := r.1, valid := true }) }, r.2.2)
  | some c =>
      if c.valid = false then
        let r := computeKeysForPfx t (some p) s
        (r.1, { r.2.1 with prefixKeysCache :=
          (mapSet r.2.1.prefixKeysCache p { keys := r.1, valid := true }) }, r.2.2)
      else
        let r := pruneListInPlace t c.keys s
        let m2 := match mapGet r.2.1.prefixKeysCache p with
                  | some c1 => mapSet r.2.1.prefixKeysCache p { c1 with keys := r.1 }
                  | none => r.2.1.prefixKeysCache
        (r.1, { r.2.1 with prefixKeysCache := m2 }, r.2.2)

/-- create-cache.ts getCachedKeys: `if (!prefix)` treats an absent and an
empty prefix alike. -/
def getCachedKeys (t : Nat) (pfx : Option String) (s : CacheState) :
    List String × CacheState × List Ev :=
  match pfx with
  | none => getCachedKeysAll t s
  | some p => if p = "" then getCachedKeysAll t s else getCachedKeysPfx t p s

/-- create-cache.ts makeEntry. -/
def makeEntry (t : Nat) (v : Option Nat) (ttl : Option Int) : CacheEntry :=
  { value := v, createdAt := t, ttlMs := ttl }

/-- store.set. -/
def storeSet (t : Nat) (k : String) (v : Option Nat) (ttl : Option Int)
    (s : CacheState) : CacheState × List Ev :=
  setInternal k (some (makeEntry t v ttl)) s

/-- store.remove. -/
def storeRemove (k : String) (s : CacheState) : CacheState × List Ev :=
  setInternal k none s

/-- store.get: the value of a live entry, else undefined. -/
def storeGet (t : Nat) (k : String) (s : CacheState) :
    Option Nat × CacheState × List Ev :=
  match getEntry t k s with
  | (some e, s1, evs) => (e.value, s1, evs)
  | (none, s1, evs) => (none, s1, evs)

/-- store.has. -/
def storeHas (t : Nat) (k : String) (s : CacheState) : Bool × CacheState × List Ev :=
  match getEntry t k s with
  | (some _, s1, evs) => (true, s1, evs)
  | (none, s1, evs) => (false, s1, evs)

/-- store.touch: in JS an explicitly-undefined ttl argument is
indistinguishable from an omitted one, so the argument is one Option. -/
def storeTouch (t : Nat) (k : String) (ttl : Option Int) (s : CacheState) :
    CacheState × List Ev :=
  match getEntry t k s with
  | (none, s1, evs) => (s1, evs)
  | (some e, s1, evs) =>
      let ne : CacheEntry :=
        { value := e.value, createdAt := t,
          ttlMs := match ttl with | none => e.ttlMs | some x => some x }
      let r := setInternal k (some ne) s1
      (r.1, evs ++ r.2)

/-- Queue one change notification per key, left to right. -/
def emitAll (ks : List String) (s : CacheState) : CacheState × List Ev :=
  ks.foldl (fun acc k => let r := queueEmitKey k acc.1; (r.1, acc.2 ++ r.2)) (s, [])

/-- store.clear() without a prefix: evict every currently-live key. -/
def storeClearAll (t : Nat) (s : CacheState) : CacheState × List Ev :=
  let r := getCachedKeysAll t s
  let ks := r.1
  let drvEvs := if r.2.1.caps.hasRemoveMany then [Ev.drvRemoveMany ks]
    else ks.map Ev.drvRemove
  let s2 := { r.2.1 with mirror := ks.foldl (fun m k => mapDelete m k) r.2.1.mirror }
  let s3 := { s2 with
    allKeysCache := { s2.allKeysCache with valid := false },
    prefixKeysCache := (s2.prefixKeysCache.map
      (fun pc => (pc.1, { pc.2 with valid := false }))) }
  let e := emitAll ks s3
  (e.1, r.2.2 ++ drvEvs ++ e.2)

/-- store.clear(prefix) with a non-falsy prefix. -/
def storeClearPfx (t : Nat) (p : String) (s : CacheState) : CacheState × List Ev :=
  let r := getCachedKeysPfx t p s
  let ks := r.1
  let s2 := { r.2.1 with mirror := ks.foldl (fun m k => mapDelete m k) r.2.1.mirror }
  let drvEvs := if s2.caps.hasClearPfx then [Ev.drvClearPfx p]
    else if s2.caps.hasRemoveMany then [Ev.drvRemoveMany ks]
    else ks.map Ev.drvRemove
  let s3 := invalidateAllKeysCache s2
  let s4 := invalidatePfxCacheOne p s3
  let s5 := ks.foldl (fun acc k => invalidatePrefixCachesForKey k acc) s4
  let e := emitAll ks s5
  (e.1, r.2.2 ++ drvEvs ++ e.2)

/-- store.clear: `if (!prefix)` treats absent and empty prefixes alike. -/
def storeClear (t : Nat) (pfx : Option String) (s : CacheState) : CacheState × List Ev :=
  match pfx with
  | none => storeClearAll t s
  | some p => if p = "" then storeClearAll t s else storeClearPfx t p s

/-- The flush performed when batchDepth has returned to zero
(create-cache.ts batch, lines 427-436). -/
def flushIfZero (s : CacheState) : CacheState × List Ev :=
  if s.batchDepth = 0 then
    let ks := s.pendingKeys
    let s1 := { s with pendingKeys := [] }
    if s1.pendingReadyEmit then
      ({ s1 with pendingReadyEmit := false }, ks.map Ev.emit ++ [Ev.emitReady])
    else (s1, ks.map Ev.emit)
  else (s, [])

/-- One engine-visible action.  A call to store.batch(fn) is encoded as
enterBatch, then the actions fn performs, then exitBatch; because the
increment and decrement sit in try/finally, the exit action of every batch
runs even when fn throws, so the trace of a real execution is always
well-bracketed (see nestOK). -/
inductive Act where
  | setA (t : Nat) (k : String) (v : Option Nat) (ttl : Option Int)
  | removeA (k : String)
  | clearA (t : Nat) (pfx : Option String)
  | keysA (t : Nat) (pfx : Option String)
  | getA (t : Nat) (k : String)
  | hasA (t : Nat) (k : String)
  | touchA (t : Nat) (k : String) (ttl : Option Int)
  | emitA (k : String)
  | enterBatch
  | exitBatch
deriving DecidableEq, Repr

/-- Interpret one action. -/
def runAct (a : Act) (s : CacheState) : CacheState × List Ev :=
  match a with
  | .setA t k v ttl => storeSet t k v ttl s
  | .removeA k => storeRemove k s
  | .clearA t pfx => storeClear t pfx s
  | .keysA t pfx => let r := getCachedKeys t pfx s; (r.2.1, r.2.2)
  | .getA t k => let r := storeGet t k s; (r.2.1, r.2.2)
  | .hasA t k => let r := storeHas t k s; (r.2.1, r.2.2)
  | .touchA t k ttl => storeTouch t k ttl s
  | .emitA k => queueEmitKey k s
  | .enterBatch => ({ s with batchDepth := s.batchDepth + 1 }, [])
  | .exitBatch => flushIfZero { s with batchDepth := s.batchDepth - 1 }

/-- Interpret a list of actions, concatenating the event traces. -/
def runActs : List Act → CacheState → CacheState × List Ev
  | [], s => (s, [])
  | a :: rest, s =>
      let r1 := runAct a s
      let r2 := runActs rest r1.1
      (r2.1, r1.2 ++ r2.2)

/-- store.batch(fn) where acts are the engine actions fn performs before
returning or throwing (the try/finally always runs the exit). -/
def storeBatch (acts : List Act) (s : CacheState) : CacheState × List Ev :=
  runActs (Act.enterBatch :: (acts ++ [Act.exitBatch])) s

/-- Well-bracketing of the enter/exit actions inside a batch body: n open
nested batches remain to be closed.  Every real execution of an fn passed to
batch is well-bracketed, throw or not, because each nested batch restores
the depth in its finally block. -/
def nestOK : List Act → Nat → Bool
  | [], n => n == 0
  | a :: rest, n =>
    match a with
    | .enterBatch => nestOK rest (n + 1)
    | .exitBatch => decide (0 < n) && nestOK rest (n - 1)
    | _ => nestOK rest n

/-- The state of a freshly constructed instance, before hydration. -/
def initState (caps : DriverCaps) : CacheState :=
  { caps := caps, mirror := [], keyListeners := [], prefixListeners := [],
    allListeners := [], readyListeners := [], batchDepth := 0, pendingKeys := [],
    pendingReadyEmit := false, ready := false, settled := none,
    allKeysCache := { keys := [], valid := false }, prefixKeysCache := [] }

/-- A JS promise keeps its first settlement; later resolve/reject calls are
ignored. -/
def promiseSettle (o : Bool) (p : Option Bool) : Option Bool :=
  match p with
  | some x => some x
  | none => some o

/-- The mirror-install loop of the hydration bootstrap (lines 458-469):
entries are written straight into the mirror, dead ones collected for
deletion when cleanupExpiredOnHydrate is set. -/
def hydrateInstall (cleanup : Bool) (t : Nat) :
    List (String × Option CacheEntry) → CacheState → CacheState × List String
  | [], s => (s, [])
  | row :: rows, s =>
      match row.2 with
      | none => hydrateInstall cleanup t rows s
      | some e =>
          if cleanup && !isAlive t e then
            let r := hydrateInstall cleanup t rows s
            (r.1, row.1 :: r.2)
          else hydrateInstall cleanup t rows { s with mirror := mapSet s.mirror row.1 e }

/-- The hydration bootstrap of createCache (lines 449-490).  ok is false when
the driver raised during listing/fetching, in which case only the catch
branch runs; otherwise the rows are batch-installed, dead rows evicted from
the driver, every derived cache invalidated, and readiness resolved. -/
def hydrateBoot (t : Nat) (rows : List (String × Option CacheEntry)) (ok : Bool)
    (cleanup : Bool) (s : CacheState) : CacheState × List Ev :=
  if ok then
    let s1 := { s with batchDepth := s.batchDepth + 1 }
    let ins := hydrateInstall cleanup t rows s1
    let fl := flushIfZero { ins.1 with batchDepth := ins.1.batchDepth - 1 }
    let drvEvs : List Ev :=
      if ins.2.isEmpty then []
      else if s.caps.hasRemoveMany then [Ev.drvRemoveMany ins.2]
      else ins.2.map Ev.drvRemove
    let s4 := { fl.1 with
      allKeysCache := { fl.1.allKeysCache with valid := false },
      prefixKeysCache := (fl.1.prefixKeysCache.map
        (fun pc => (pc.1, { pc.2 with valid := false }))),
      ready := true, settled := promiseSettle true fl.1.settled }
    let rdy := queueEmitReady s4
    (rdy.1, fl.2 ++ drvEvs ++ rdy.2)
  else
    let s1 := { s with ready := true, settled := promiseSettle false s.settled }
    let rdy := queueEmitReady s1
    (rdy.1, rdy.2)

/-- The in-flight de-duplication state around getOrSetAsync: the cache state
plus the inFlight map; promises are identified by a fetch id, and
nextFetchId counts how many times a fetcher has ever been invoked. -/
structure AsyncState where
  cache : CacheState
  inFlight : List (String × Nat)
  nextFetchId : Nat
deriving DecidableEq, Repr

/-- What one getOrSetAsync call returns: a cached value, the promise of an
existing in-flight fetch, or a freshly started fetch (the only case in which
the supplied fetcher is invoked). -/
inductive GosaResult where
  | hitVal (v : Nat)
  | joined (fid : Nat)
  | started (fid : Nat)
deriving DecidableEq, Repr

/-- getOrSetAsync up to its first suspension point: read the cached value
unless force, join an in-flight fetch, or start a new one.  The JS engine is
single-threaded, so this whole prefix runs atomically. -/
def gosaCall (t : Nat) (k : String) (force : Bool) (s : AsyncState) :
    GosaResult × AsyncState × List Ev :=
  if force then
    match mapGet s.inFlight k with
    | some fid => (.joined fid, s, [])
    | none =>
        (.started s.nextFetchId,
         { s with inFlight := (mapSet s.inFlight k s.nextFetchId),
                  nextFetchId := s.nextFetchId + 1 }, [])
  else
    match storeGet t k s.cache with
    | (some n, c1, evs) => (.hitVal n, { s with cache := c1 }, evs)
    | (none, c1, evs) =>
        match mapGet s.inFlight k with
        | some fid => (.joined fid, { s with cache := c1 }, evs)
        | none =>
            (.started s.nextFetchId,
             { s with cache := c1, inFlight := (mapSet s.inFlight k s.nextFetchId),
                      nextFetchId := s.nextFetchId + 1 }, evs)

/-- The continuation of getOrSetAsync after the fetch settles: on success
(some (v, ttl)) the value is stored via set; in both cases the finally block
deletes the in-flight entry exactly once. -/
def gosaSettle (t : Nat) (k : String) (outcome : Option (Option Nat × Option Int))
    (s : AsyncState) : AsyncState × List Ev :=
  match outcome with
  | some vt =>
      let r := storeSet t k vt.1 vt.2 s.cache
      ({ s with cache := r.1, inFlight := mapDelete s.inFlight k }, r.2)
  | none => ({ s with inFlight := mapDelete s.inFlight k }, [])

/-- N concurrent getOrSetAsync callers for one key (force = false), in the
order the single-threaded runtime executes their synchronous prefixes, at
nondecreasing times, all before the fetch settles. -/
def runCalls : List Nat → String → AsyncState → List GosaResult × AsyncState × List Ev
  | [], _, s => ([], s, [])
  | t :: ts, k, s =>
      let r1 := gosaCall t k false s
      let r2 := runCalls ts k r1.2.1
      (r1.1 :: r2.1, r2.2.1, r1.2.2 ++ r2.2.2)

/-- There is no live value for k in s: the mirror entry is absent, holds the
value undefined, or is dead.  Exactly the states in which storeGet yields
undefined. -/
def noLiveValue (t : Nat) (k : String) (s : CacheState) : Bool :=
  match mapGet s.mirror k with
  | none => true
  | some e => e.value.isNone || !isAlive t e

/-- Liveness of a key looked up through the mirror. -/
def aliveK (t : Nat) (s : CacheState) (k : String) : Bool :=
  match mapGet s.mirror k with
  | some e => isAlive t e
  | none => false

/-- The keys currently in the mirror that are live and match the prefix, in
mirror insertion order. -/
def liveMatching (t : Nat) (pfx : Option String) (s : CacheState) : List String :=
  (s.mirror.filter (fun kv => matchesPfx pfx kv.1 && isAlive t kv.2)).map Prod.fst

/-- The key-list-cache coherence invariant: mirror keys and cached prefixes
are unique, and any cache currently marked valid holds exactly the mirror
keys in its scope, in mirror order (dead ones included until pruned). -/
def CacheInv (s : CacheState) : Prop :=
  (s.mirror.map Prod.fst).Nodup ∧
  (s.prefixKeysCache.map Prod.fst).Nodup ∧
  (s.allKeysCache.valid = true → s.allKeysCache.keys = s.mirror.map Prod.fst) ∧
  (∀ pc ∈ s.prefixKeysCache, pc.2.valid = true →
     pc.2.keys = (s.mirror.filter (fun kv => kv.1.startsWith pc.1)).map Prod.fst)

instance (s : CacheState) : Decidable (CacheInv s) := by
  unfold CacheInv
  infer_instance

/-! Basic association-list lemmas. -/

theorem mapGet_mapSet_self {α : Type} (m : List (String × α)) (k : String) (v : α) :
    mapGet (mapSet m k v) k = some v := by
  induction m with
  | nil => simp [mapSet, mapGet]
  | cons hd tl ih =>
      rcases hd with ⟨k0, v0⟩
      by_cases h : k0 = k
      · simp [mapSet, mapGet, h]
      · simp [mapSet, mapGet, h, ih]

theorem mapGet_mapSet_ne {α : Type} (m : List (String × α)) (k k' : String) (v : α)
    (h : k' ≠ k) : mapGet (mapSet m k v) k' = mapGet m k' := by
  induction m with
  | nil => simp [mapSet, mapGet, Ne.symm h]
  | cons hd tl ih =>
      rcases hd with ⟨k0, v0⟩
      by_cases hk : k0 = k
      · subst hk
        simp [mapSet, mapGet, Ne.symm h]
      · by_cases hk' : k0 = k'
        · simp [mapSet, mapGet, hk, hk', h]
        · simp [mapSet, mapGet, hk, hk', ih]

theorem mapGet_mapDelete {α : Type} (m : List (String × α)) (k k' : String) :
    mapGet (mapDelete m k) k' = if k' = k then none else mapGet m k' := by
  induction m with
  | nil => simp [mapDelete, mapGet]
  | cons hd tl ih =>
      rcases hd with ⟨k0, v0⟩
      by_cases hk : k0 = k
      · subst hk
        by_cases hk' : k' = k0
        · subst hk'
          simp [mapDelete, mapGet, ih]
        · simp [mapDelete, mapGet, ih, hk', Ne.symm hk']
      · by_cases hk' : k0 = k'
        · subst hk'
          simp [mapDelete, mapGet, hk, Ne.symm hk]
        · simp [mapDelete, mapGet, hk, hk', ih]

theorem mapDelete_eq_filter {α : Type} (m : List (String × α)) (k : String) :
    mapDelete m k = m.filter (fun kv => decide (kv.1 ≠ k)) := by
  induction m with
  | nil => simp [mapDelete]
  | cons hd tl ih =>
      rcases hd with ⟨k0, v0⟩
      by_cases hk : k0 = k
      · simp [mapDelete, hk, ih, List.filter_cons]
      · simp [mapDelete, hk, ih, List.filter_cons]

theorem fst_mapDelete_sublist {α : Type} (m : List (String × α)) (k : String) :
    ((mapDelete m k).map Prod.fst).Sublist (m.map Prod.fst) := by
  rw [mapDelete_eq_filter]
  exact List.Sublist.map Prod.fst (List.filter_sublist m)

theorem nodup_fst_mapDelete {α : Type} (m : List (String × α)) (k : String)
    (h : (m.map Prod.fst).Nodup) : ((mapDelete m k).map Prod.fst).Nodup :=
  (fst_mapDelete_sublist m k).nodup h

theorem fst_mapSet {α : Type} (m : List (String × α)) (k : String) (v : α) :
    (mapSet m k v).map Prod.fst =
      if k ∈ m.map Prod.fst then m.map Prod.fst else m.map Prod.fst ++ [k] := by
  induction m with
  | nil => simp [mapSet]
  | cons hd tl ih =>
      rcases hd with ⟨k0, v0⟩
      by_cases hk : k0 = k
      · subst hk
        simp [mapSet]
      · have hk2 : ¬ k = k0 := fun hh => hk hh.symm
        by_cases hm : k ∈ tl.map Prod.fst
        · simp [mapSet, hk, hk2, hm, ih]
        · simp [mapSet, hk, hk2, hm, ih]

theorem nodup_fst_mapSet {α : Type} (m : List (String × α)) (k : String) (v : α)
    (h : (m.map Prod.fst).Nodup) : ((mapSet m k v).map Prod.fst).Nodup := by
  rw [fst_mapSet]
  by_cases hm : k ∈ m.map Prod.fst
  · simpa [hm] using h
  · simp [hm, List.nodup_append, h]

theorem mapGet_eq_none_iff {α : Type} (m : List (String × α)) (k : String) :
    mapGet m k = none ↔ k ∉ m.map Prod.fst := by
  induction m with
  | nil => simp [mapGet]
  | cons hd tl ih =>
      rcases hd with ⟨k0, v0⟩
      by_cases hk : k0 = k
      · simp [mapGet, hk]
      · have hk2 : ¬ k = k0 := fun hh => hk hh.symm
        simpa [mapGet, hk, hk2] using ih

theorem mem_of_mapGet_eq_some {α : Type} {m : List (String × α)} {k : String} {v : α}
    (h : mapGet m k = some v) : (k, v) ∈ m := by
  induction m with
  | nil => simp [mapGet] at h
  | cons hd tl ih =>
      rcases hd with ⟨k0, v0⟩
      by_cases hk : k0 = k
      · subst hk
        simp [mapGet] at h
        subst h
        exact List.mem_cons_self _ _
      · simp [mapGet, hk] at h
        exact List.mem_cons_of_mem _ (ih h)

theorem mapGet_of_mem {α : Type} {m : List (String × α)} {kv : String × α}
    (hnd : (m.map Prod.fst).Nodup) (h : kv ∈ m) : mapGet m kv.1 = some kv.2 := by
  induction m with
  | nil => simp at h
  | cons hd tl ih =>
      rcases hd with ⟨k0, v0⟩
      rw [List.map_cons] at hnd
      have hnd' := List.nodup_cons.mp hnd
      rcases List.mem_cons.mp h with h0 | h0
      · subst h0
        simp [mapGet]
      · have hne : k0 ≠ kv.1 := by
          intro hE
          apply hnd'.1
          rw [hE]
          exact List.mem_map.mpr ⟨kv, h0, rfl⟩
        simp [mapGet, hne, ih hnd'.2 h0]

theorem eq_of_fst_eq_of_nodup {α : Type} {m : List (String × α)} {a b : String × α}
    (hnd : (m.map Prod.fst).Nodup) (ha : a ∈ m) (hb : b ∈ m) (h : a.1 = b.1) : a = b := by
  have h1 := mapGet_of_mem hnd ha
  have h2 := mapGet_of_mem hnd hb
  rw [h] at h1
  rw [h1] at h2
  have h3 : a.2 = b.2 := Option.some.inj h2
  cases a
  cases b
  simp only at h h3
  rw [h, h3]

/-! Interaction of filters with map updates, and invariant preservation for
the atomic mutations. -/

theorem map_fst_entry {β : Type} (g : String → β → β) (l : List (String × β)) :
    (l.map (fun pc => (pc.1, g pc.1 pc.2))).map Prod.fst = l.map Prod.fst := by
  rw [List.map_map]
  rfl

theorem map_fst_of_fst_preserved {β : Type} (f : (String × β) → (String × β))
    (hf : ∀ pc, (f pc).1 = pc.1) (l : List (String × β)) :
    (l.map f).map Prod.fst = l.map Prod.fst := by
  rw [List.map_map]
  apply List.map_congr_left
  intro pc _
  exact hf pc

theorem mapGet_map_of_fst_preserved {β : Type} (f : (String × β) → (String × β))
    (hf : ∀ pc, (f pc).1 = pc.1) (l : List (String × β)) (p : String) :
    mapGet (l.map f) p = (mapGet l p).map (fun c => (f (p, c)).2) := by
  induction l with
  | nil => simp [mapGet]
  | cons hd tl ih =>
      rcases hd with ⟨k0, c0⟩
      have hffst := hf (k0, c0)
      by_cases hk : k0 = p
      · subst hk
        have : f (k0, c0) = (k0, (f (k0, c0)).2) := by
          cases hE : f (k0, c0)
          simp only [hE] at hffst
          simp [hffst]
        rw [List.map_cons, this]
        simp [mapGet]
      · cases hE : f (k0, c0)
        simp only [hE] at hffst
        subst hffst
        rw [List.map_cons, hE]
        simp [mapGet, hk, ih]

theorem mapGet_map_entry {β : Type} (g : String → β → β) (l : List (String × β)) (p : String) :
    mapGet (l.map (fun pc => (pc.1, g pc.1 pc.2))) p = (mapGet l p).map (g p) := by
  induction l with
  | nil => simp [mapGet]
  | cons hd tl ih =>
      rcases hd with ⟨k0, c0⟩
      by_cases hk : k0 = p
      · subst hk
        simp [mapGet]
      · simp [mapGet, hk, ih]

theorem invalidateForKey_as_entry (k : String) (l : List (String × KeyListCache)) :
    l.map (fun pc => if k.startsWith pc.1 then (pc.1, { pc.2 with valid := false }) else pc)
      = l.map (fun pc =>
          (pc.1, if k.startsWith pc.1 then { pc.2 with valid := false } else pc.2)) := by
  apply List.map_congr_left
  intro pc _
  by_cases hk : k.startsWith pc.1 <;> simp [hk]

theorem invalidateOne_as_entry (p : String) (l : List (String × KeyListCache)) :
    l.map (fun pc => if pc.1 = p then (pc.1, { pc.2 with valid := false }) else pc)
      = l.map (fun pc =>
          (pc.1, if pc.1 = p then { pc.2 with valid := false } else pc.2)) := by
  apply List.map_congr_left
  intro pc _
  by_cases hk : pc.1 = p <;> simp [hk]

theorem filter_fst_mapDelete {α : Type} (P : String → Bool) (m : List (String × α))
    (k : String) (h : P k = false) :
    (mapDelete m k).filter (fun kv => P kv.1) = m.filter (fun kv => P kv.1) := by
  induction m with
  | nil => simp [mapDelete]
  | cons hd tl ih =>
      rcases hd with ⟨k0, v0⟩
      by_cases hk : k0 = k
      · subst hk
        simp [mapDelete, List.filter_cons, h, ih]
      · by_cases hp : P k0 <;> simp [mapDelete, List.filter_cons, hk, hp, ih]

theorem filter_fst_mapSet {α : Type} (P : String → Bool) (m : List (String × α))
    (k : String) (v : α) (h : P k = false) :
    (mapSet m k v).filter (fun kv => P kv.1) = m.filter (fun kv => P kv.1) := by
  induction m with
  | nil => simp [mapSet, List.filter_cons, h]
  | cons hd tl ih =>
      rcases hd with ⟨k0, v0⟩
      by_cases hk : k0 = k
      · subst hk
        simp [mapSet, List.filter_cons, h]
      · by_cases hp : P k0 <;> simp [mapSet, List.filter_cons, hk, hp, ih]

theorem CacheInv_of_same (s s' : CacheState) (hm : s'.mirror = s.mirror)
    (ha : s'.allKeysCache = s.allKeysCache) (hp : s'.prefixKeysCache = s.prefixKeysCache)
    (h : CacheInv s) : CacheInv s' := by
  unfold CacheInv at *
  rw [hm, ha, hp]
  exact h

theorem queueEmitKey_fields (k : String) (s : CacheState) :
    (queueEmitKey k s).1.mirror = s.mirror ∧
    (queueEmitKey k s).1.allKeysCache = s.allKeysCache ∧
    (queueEmitKey k s).1.prefixKeysCache = s.prefixKeysCache := by
  unfold queueEmitKey
  by_cases h : 0 < s.batchDepth <;> simp [h]

theorem CacheInv_dropKey (k : String) (s : CacheState) (h : CacheInv s) :
    CacheInv (dropKey k s).1 := by
  obtain ⟨h1, h2, h3, h4⟩ := h
  unfold dropKey invalidateKeyCachesForMutation invalidatePrefixCachesForKey
    invalidateAllKeysCache CacheInv
  dsimp only
  refine ⟨nodup_fst_mapDelete s.mirror k h1, ?_, by simp, ?_⟩
  · rw [map_fst_of_fst_preserved
      (fun pc => if k.startsWith pc.1 then (pc.1, { pc.2 with valid := false }) else pc)
      (by intro pc; by_cases hsw : k.startsWith pc.1 <;> simp [hsw]) s.prefixKeysCache]
    exact h2
  · intro pc hpc hval
    rcases List.mem_map.mp hpc with ⟨pc0, hpc0, rfl⟩
    by_cases hsw : k.startsWith pc0.1
    · rw [if_pos hsw] at hval
      simp at hval
    · rw [if_neg hsw] at hval ⊢
      have hP : (fun x => x.startsWith pc0.1) k = false := by
        simpa using hsw
      rw [filter_fst_mapDelete (fun x => x.startsWith pc0.1) s.mirror k hP]
      exact h4 pc0 hpc0 hval

theorem CacheInv_store_branch (k : String) (e : CacheEntry) (s : CacheState)
    (h : CacheInv s) :
    CacheInv (invalidateKeyCachesForMutation k { s with mirror := mapSet s.mirror k e }) := by
  obtain ⟨h1, h2, h3, h4⟩ := h
  unfold invalidateKeyCachesForMutation invalidatePrefixCachesForKey
    invalidateAllKeysCache CacheInv
  dsimp only
  refine ⟨nodup_fst_mapSet s.mirror k e h1, ?_, by simp, ?_⟩
  · rw [map_fst_of_fst_preserved
      (fun pc => if k.startsWith pc.1 then (pc.1, { pc.2 with valid := false }) else pc)
      (by intro pc; by_cases hsw : k.startsWith pc.1 <;> simp [hsw]) s.prefixKeysCache]
    exact h2
  · intro pc hpc hval
    rcases List.mem_map.mp hpc with ⟨pc0, hpc0, rfl⟩
    by_cases hsw : k.startsWith pc0.1
    · rw [if_pos hsw] at hval
      simp at hval
    · rw [if_neg hsw] at hval ⊢
      have hP : (fun x => x.startsWith pc0.1) k = false := by
        simpa using hsw
      rw [filter_fst_mapSet (fun x => x.startsWith pc0.1) s.mirror k e hP]
      exact h4 pc0 hpc0 hval

theorem CacheInv_setInternal (k : String) (e? : Option CacheEntry) (s : CacheState)
    (h : CacheInv s) : CacheInv (setInternal k e? s).1 := by
  match e? with
  | none =>
      have h1 := CacheInv_dropKey k s h
      simp only [dropKey] at h1
      obtain ⟨hm, ha, hp⟩ := queueEmitKey_fields k
        (invalidateKeyCachesForMutation k { s with mirror := mapDelete s.mirror k })
      exact CacheInv_of_same _ _ hm ha hp h1
  | some e =>
      by_cases ht : ttlNonPos e.ttlMs
      · have h1 := CacheInv_dropKey k s h
        simp only [dropKey] at h1
        obtain ⟨hm, ha, hp⟩ := queueEmitKey_fields k
          (invalidateKeyCachesForMutation k { s with mirror := mapDelete s.mirror k })
        simp only [setInternal, ht, if_true]
        exact CacheInv_of_same _ _ hm ha hp h1
      · have h1 := CacheInv_store_branch k e s h
        obtain ⟨hm, ha, hp⟩ := queueEmitKey_fields k
          (invalidateKeyCachesForMutation k { s with mirror := mapSet s.mirror k e })
        simp only [setInternal, ht, if_false]
        exact CacheInv_of_same _ _ hm ha hp h1

theorem CacheInv_getEntry (t : Nat) (k : String) (s : CacheState) (h : CacheInv s) :
    CacheInv (getEntry t k s).2.1 := by
  unfold getEntry
  match hm : mapGet s.mirror k with
  | none => exact h
  | some e =>
      by_cases ha : isAlive t e
      · simp only [ha, if_true]
        exact h
      · simp only [ha, if_false]
        exact CacheInv_dropKey k s h

theorem storeRemove_eq (k : String) (s : CacheState) :
    storeRemove k s =
      (if 0 < s.batchDepth then
        ({ invalidateKeyCachesForMutation k { s with mirror := mapDelete s.mirror k } with
           pendingKeys := pendingAdd s.pendingKeys k }, [Ev.drvRemove k])
       else (invalidateKeyCachesForMutation k { s with mirror := mapDelete s.mirror k },
             [Ev.drvRemove k, Ev.emit k])) := by
  unfold storeRemove setInternal queueEmitKey invalidateKeyCachesForMutation
    invalidatePrefixCachesForKey invalidateAllKeysCache
  dsimp only
  by_cases hb : 0 < s.batchDepth <;> simp [hb]

theorem storeRemove_mirror (k : String) (s : CacheState) :
    (storeRemove k s).1.mirror = mapDelete s.mirror k := by
  rw [storeRemove_eq]
  by_cases hb : 0 < s.batchDepth <;>
    simp [hb, invalidateKeyCachesForMutation, invalidatePrefixCachesForKey,
      invalidateAllKeysCache]

theorem storeRemove_allKeys (k : String) (s : CacheState) :
    (storeRemove k s).1.allKeysCache = { keys := s.allKeysCache.keys, valid := false } := by
  rw [storeRemove_eq]
  by_cases hb : 0 < s.batchDepth <;>
    simp [hb, invalidateKeyCachesForMutation, invalidatePrefixCachesForKey,
      invalidateAllKeysCache]

theorem storeRemove_prefixCache (k : String) (s : CacheState) :
    (storeRemove k s).1.prefixKeysCache = s.prefixKeysCache.map
      (fun pc => if k.startsWith pc.1 then (pc.1, { pc.2 with valid := false }) else pc) := by
  rw [storeRemove_eq]
  by_cases hb : 0 < s.batchDepth <;>
    simp [hb, invalidateKeyCachesForMutation, invalidatePrefixCachesForKey,
      invalidateAllKeysCache]

theorem storeRemove_pending (k : String) (s : CacheState) (hb : 0 < s.batchDepth) :
    (storeRemove k s).1.pendingKeys = pendingAdd s.pendingKeys k := by
  rw [storeRemove_eq]
  simp [hb]

theorem storeRemove_evs_of_zero (k : String) (s : CacheState) (hb : s.batchDepth = 0) :
    (storeRemove k s).2 = [Ev.drvRemove k, Ev.emit k] := by
  rw [storeRemove_eq]
  simp [hb]

/-- C5: set(key, value, ttlMs) with a present, non-positive ttlMs is exactly
remove(key): the two calls are one and the same state transition — the key is
deleted from the mirror with no entry stored, a driver removal is issued, the
key-list caches scoped over the key are invalidated, and one change
notification for the key is queued (delivered immediately outside a batch). -/
theorem set_nonpos_ttl_is_remove (t : Nat) (k : String) (v : Option Nat) (ttl : Int)
    (h : ttl ≤ 0) (s : CacheState) :
    storeSet t k v (some ttl) s = storeRemove k s ∧
    (storeRemove k s).1.mirror = mapDelete s.mirror k ∧
    Ev.drvRemove k ∈ (storeRemove k s).2 ∧
    (storeRemove k s).1.allKeysCache.valid = false ∧
    (∀ pc ∈ (storeRemove k s).1.prefixKeysCache, k.startsWith pc.1 → pc.2.valid = false) ∧
    (0 < s.batchDepth → (storeRemove k s).1.pendingKeys = pendingAdd s.pendingKeys k) ∧
    (s.batchDepth = 0 → (storeRemove k s).2 = [Ev.drvRemove k, Ev.emit k]) := by
  refine ⟨?_, storeRemove_mirror k s, ?_, ?_, ?_, storeRemove_pending k s,
    storeRemove_evs_of_zero k s⟩
  · simp [storeSet, storeRemove, setInternal, makeEntry, ttlNonPos, h]
  · rw [storeRemove_eq]
    by_cases hb : 0 < s.batchDepth <;> simp [hb]
  · rw [storeRemove_allKeys]
  · rw [storeRemove_prefixCache]
    intro pc hpc hsw
    rcases List.mem_map.mp hpc with ⟨pc0, hpc0, rfl⟩
    by_cases h0 : k.startsWith pc0.1
    · simp [h0]
    · rw [if_neg h0] at hsw ⊢
      exact absurd hsw h0

/-- C6 (amended): touch(key, ttlMs?) is a no-op only when the key is absent;
on a present-but-dead entry it is not a no-op — the getEntry call evicts the
dead entry (see touch_dead_not_noop); on a live entry it re-stores the same
value with createdAt = now, keeping the old ttlMs when the argument is omitted
and overwriting it when supplied, through the same setInternal path as set.
Because JavaScript cannot distinguish an omitted argument from an explicit
undefined, a caller can keep or overwrite the TTL but can never clear it. -/
theorem touch_spec (t : Nat) (k : String) (ttl : Option Int) (s : CacheState) :
    (mapGet s.mirror k = none → storeTouch t k ttl s = (s, [])) ∧
    (∀ e, mapGet s.mirror k = some e → isAlive t e = false →
       storeTouch t k ttl s = dropKey k s ∧
       (∀ ev ∈ (storeTouch t k ttl s).2, ∀ k2, ev ≠ Ev.emit k2)) ∧
    (∀ e, mapGet s.mirror k = some e → isAlive t e = true →
       storeTouch t k ttl s =
         setInternal k (some { value := e.value, createdAt := t,
                               ttlMs := match ttl with | none => e.ttlMs | some x => some x }) s) := by
  refine ⟨?_, ?_, ?_⟩
  · intro hm
    simp [storeTouch, getEntry, hm]
  · intro e hm hd
    constructor
    · simp [storeTouch, getEntry, hm, hd]
    · simp [storeTouch, getEntry, hm, hd, dropKey]
  · intro e hm ha
    simp [storeTouch, getEntry, hm, ha]

theorem storeGet_dead_eq (t : Nat) (k : String) (s : CacheState) (e : CacheEntry)
    (hm : mapGet s.mirror k = some e) (hd : isAlive t e = false) :
    storeGet t k s = (none, (dropKey k s).1, (dropKey k s).2) := by
  unfold storeGet getEntry
  rw [hm]
  simp [hd]

/-- C8: get(key) on an entry whose ttlMs = T > 0 has elapsed (now - createdAt
is at least T) returns undefined, deletes the key from the mirror leaving every
other entry unchanged, issues exactly one driver delete, invalidates the
all-keys cache and every prefix cache matching the key, emits no notification,
and leaves all listener registries and the pending set unchanged. -/
theorem expired_get_evicts (t : Nat) (k : String) (s : CacheState) (e : CacheEntry)
    (T : Int) (hm : mapGet s.mirror k = some e) (hT : e.ttlMs = some T) (hpos : 0 < T)
    (hexp : T ≤ (t : Int) - (e.createdAt : Int)) :
    (storeGet t k s).1 = none ∧
    (storeGet t k s).2.1.mirror = mapDelete s.mirror k ∧
    (∀ k2, k2 ≠ k → mapGet (storeGet t k s).2.1.mirror k2 = mapGet s.mirror k2) ∧
    (storeGet t k s).2.2 = [Ev.drvRemove k] ∧
    (storeGet t k s).2.1.allKeysCache = { keys := s.allKeysCache.keys, valid := false } ∧
    (storeGet t k s).2.1.prefixKeysCache = s.prefixKeysCache.map
      (fun pc => if k.startsWith pc.1 then (pc.1, { pc.2 with valid := false }) else pc) ∧
    (storeGet t k s).2.1.keyListeners = s.keyListeners ∧
    (storeGet t k s).2.1.prefixListeners = s.prefixListeners ∧
    (storeGet t k s).2.1.allListeners = s.allListeners ∧
    (storeGet t k s).2.1.readyListeners = s.readyListeners ∧
    (storeGet t k s).2.1.pendingKeys = s.pendingKeys := by
  have hdead : isAlive t e = false := by
    simp only [isAlive, hT]
    rw [if_neg (by omega)]
    simpa using not_lt.mpr hexp
  rw [storeGet_dead_eq t k s e hm hdead]
  refine ⟨rfl, rfl, ?_, rfl, rfl, rfl, rfl, rfl, rfl, rfl, rfl⟩
  intro k2 hk2
  show mapGet (mapDelete s.mirror k) k2 = mapGet s.mirror k2
  rw [mapGet_mapDelete]
  exact if_neg hk2

/-- C10: getOrSetAsync(key, fetcher, force) while a fetch for key is in
flight joins that fetch no matter what force is: with force = true it returns
the existing in-flight promise, does not start a new fetch, and leaves the
state untouched — force bypasses only the cached-value check, never the
in-flight de-duplication. -/
theorem force_joins_inflight (t : Nat) (k : String) (s : AsyncState) (fid : Nat)
    (h : mapGet s.inFlight k = some fid) :
    gosaCall t k true s = (GosaResult.joined fid, s, []) := by
  simp [gosaCall, h]

theorem storeGet_none_of_noLive (t : Nat) (k : String) (s : CacheState)
    (h : noLiveValue t k s = true) : (storeGet t k s).1 = none := by
  unfold noLiveValue at h
  unfold storeGet getEntry
  match hm : mapGet s.mirror k with
  | none => simp
  | some e =>
      rw [hm] at h
      simp only [Bool.or_eq_true, Option.isNone_iff_eq_none, Bool.not_eq_true'] at h
      rcases h with h | h
      · by_cases ha : isAlive t e
        · simp [ha, h]
        · simp [ha]
      · simp [h]

/-- C7: when the fetcher rejects, the settlement path stores nothing — the
cache state is completely unchanged — removes the in-flight entry for the key,
emits nothing, and a later getOrSetAsync for the key (still without a live
value) starts a fresh fetch with a new fetch id, invoking its fetcher again.
Every waiter holds the same first-settled promise, so all receive the
rejection. -/
theorem fetcher_failure_clears_inflight (t t2 : Nat) (k : String) (s : AsyncState)
    (fid : Nat) (hf : mapGet s.inFlight k = some fid)
    (hnl : noLiveValue t2 k s.cache = true) :
    gosaSettle t k none s = ({ s with inFlight := mapDelete s.inFlight k }, []) ∧
    (gosaSettle t k none s).1.cache = s.cache ∧
    mapGet (gosaSettle t k none s).1.inFlight k = none ∧
    (gosaCall t2 k false (gosaSettle t k none s).1).1 = GosaResult.started s.nextFetchId ∧
    (gosaCall t2 k false (gosaSettle t k none s).1).2.1.nextFetchId = s.nextFetchId + 1 := by
  have hgone : mapGet (mapDelete s.inFlight k) k = none := by
    rw [mapGet_mapDelete]
    simp
  have hv : (storeGet t2 k s.cache).1 = none := storeGet_none_of_noLive t2 k s.cache hnl
  refine ⟨rfl, rfl, hgone, ?_, ?_⟩
  · unfold gosaSettle gosaCall
    dsimp only
    rcases hE : storeGet t2 k s.cache with ⟨v, c1, evs⟩
    rw [hE] at hv
    simp only at hv
    subst hv
    simp [hgone]
  · unfold gosaSettle gosaCall
    dsimp only
    rcases hE : storeGet t2 k s.cache with ⟨v, c1, evs⟩
    rw [hE] at hv
    simp only at hv
    subst hv
    simp [hgone]

theorem isAlive_mono_false (t t2 : Nat) (e : CacheEntry) (hle : t ≤ t2)
    (hd : isAlive t e = false) : isAlive t2 e = false := by
  rcases e with ⟨v, c, ttlOpt⟩
  rcases ttlOpt with _ | ttl
  · simp [isAlive] at hd
  · simp only [isAlive] at hd ⊢
    by_cases h0 : ttl = 0
    · simp [h0] at hd
    · rw [if_neg h0] at hd ⊢
      rw [decide_eq_false_iff_not] at hd ⊢
      omega

theorem noLiveValue_mono (t t2 : Nat) (k : String) (c : CacheState) (hle : t ≤ t2)
    (h : noLiveValue t k c = true) : noLiveValue t2 k c = true := by
  unfold noLiveValue at h ⊢
  match hm : mapGet c.mirror k with
  | none => simp
  | some e =>
      rw [hm] at h
      simp only [Bool.or_eq_true, Option.isNone_iff_eq_none, Bool.not_eq_true'] at h ⊢
      rcases h with h | h
      · exact Or.inl h
      · exact Or.inr (isAlive_mono_false t t2 e hle h)

theorem noLive_after_get (t t2 : Nat) (k : String) (c : CacheState)
    (h : noLiveValue t2 k c = true) :
    noLiveValue t2 k (storeGet t k c).2.1 = true := by
  unfold storeGet getEntry
  match hm : mapGet c.mirror k with
  | none => simpa [noLiveValue, hm] using h
  | some e =>
      by_cases ha : isAlive t e
      · simpa [ha, noLiveValue, hm] using h
      · simp only [ha]
        unfold noLiveValue
        simp [dropKey, invalidateKeyCachesForMutation, invalidatePrefixCachesForKey,
          invalidateAllKeysCache, mapGet_mapDelete]

/-- The state after a getOrSetAsync call that merely observed the cache (a
join): only get's lazy eviction may have run. -/
def gosaSeen (t : Nat) (k : String) (s : AsyncState) : AsyncState :=
  { s with cache := (storeGet t k s.cache).2.1 }

/-- The state after a getOrSetAsync call that started a fresh fetch. -/
def gosaStart (t : Nat) (k : String) (s : AsyncState) : AsyncState :=
  { s with cache := (storeGet t k s.cache).2.1,
           inFlight := (mapSet s.inFlight k s.nextFetchId),
           nextFetchId := s.nextFetchId + 1 }

theorem gosaCall_inflight_join (t : Nat) (k : String) (s : AsyncState) (fid : Nat)
    (hnl : noLiveValue t k s.cache = true) (hf : mapGet s.inFlight k = some fid) :
    gosaCall t k false s =
      (GosaResult.joined fid, gosaSeen t k s, (storeGet t k s.cache).2.2) := by
  have hv : (storeGet t k s.cache).1 = none := storeGet_none_of_noLive t k s.cache hnl
  unfold gosaCall gosaSeen
  rcases hE : storeGet t k s.cache with ⟨v, c1, evs⟩
  rw [hE] at hv
  simp only at hv
  subst hv
  simp [hf]

theorem gosaCall_starts (t : Nat) (k : String) (s : AsyncState)
    (hnl : noLiveValue t k s.cache = true) (hf : mapGet s.inFlight k = none) :
    gosaCall t k false s =
      (GosaResult.started s.nextFetchId, gosaStart t k s, (storeGet t k s.cache).2.2) := by
  have hv : (storeGet t k s.cache).1 = none := storeGet_none_of_noLive t k s.cache hnl
  unfold gosaCall gosaStart
  rcases hE : storeGet t k s.cache with ⟨v, c1, evs⟩
  rw [hE] at hv
  simp only at hv
  subst hv
  simp [hf]

theorem runCalls_cons (t : Nat) (ts : List Nat) (k : String) (s : AsyncState) :
    runCalls (t :: ts) k s =
      ((gosaCall t k false s).1 :: (runCalls ts k (gosaCall t k false s).2.1).1,
       (runCalls ts k (gosaCall t k false s).2.1).2.1,
       (gosaCall t k false s).2.2 ++ (runCalls ts k (gosaCall t k false s).2.1).2.2) := rfl

theorem runCalls_joined (k : String) (fid : Nat) :
    ∀ (ts : List Nat) (t0 : Nat) (s : AsyncState),
      List.Chain' (fun a b => a ≤ b) (t0 :: ts) →
      noLiveValue t0 k s.cache = true →
      mapGet s.inFlight k = some fid →
      (runCalls ts k s).1 = ts.map (fun _ => GosaResult.joined fid) ∧
      (runCalls ts k s).2.1.inFlight = s.inFlight ∧
      (runCalls ts k s).2.1.nextFetchId = s.nextFetchId := by
  intro ts
  induction ts with
  | nil =>
      intro t0 s hch hnl hf
      simp [runCalls]
  | cons t1 ts ih =>
      intro t0 s hch hnl hf
      have hle : t0 ≤ t1 := (List.chain'_cons.mp hch).1
      have hch1 : List.Chain' (fun a b => a ≤ b) (t1 :: ts) := (List.chain'_cons.mp hch).2
      have hnl1 : noLiveValue t1 k s.cache = true := noLiveValue_mono t0 t1 k s.cache hle hnl
      have hnl2 : noLiveValue t1 k (gosaSeen t1 k s).cache = true :=
        noLive_after_get t1 t1 k s.cache hnl1
      have hf1 : mapGet (gosaSeen t1 k s).inFlight k = some fid := hf
      have hres := ih t1 (gosaSeen t1 k s) hch1 hnl2 hf1
      rw [runCalls_cons, gosaCall_inflight_join t1 k s fid hnl1 hf]
      refine ⟨?_, ?_, ?_⟩
      · show GosaResult.joined fid :: (runCalls ts k (gosaSeen t1 k s)).1 = _
        rw [hres.1]
        simp
      · show (runCalls ts k (gosaSeen t1 k s)).2.1.inFlight = s.inFlight
        rw [hres.2.1]
        rfl
      · show (runCalls ts k (gosaSeen t1 k s)).2.1.nextFetchId = s.nextFetchId
        rw [hres.2.2]
        rfl

/-- C2: N concurrent getOrSetAsync callers for a key with no live value, all
arriving before the fetch settles: the first call starts exactly one fetch
(consuming exactly one fetch id) and every later call joins that same fetch,
so the fetcher runs once and all callers await the same promise; the in-flight
entry survives until settlement and one settlement — success or failure —
removes it. -/
theorem inflight_dedup (k : String) (t0 : Nat) (ts : List Nat) (s : AsyncState)
    (hch : List.Chain' (fun a b => a ≤ b) (t0 :: ts))
    (hnl : noLiveValue t0 k s.cache = true)
    (hnf : mapGet s.inFlight k = none) :
    (runCalls (t0 :: ts) k s).1 =
      GosaResult.started s.nextFetchId ::
        ts.map (fun _ => GosaResult.joined s.nextFetchId) ∧
    (runCalls (t0 :: ts) k s).2.1.nextFetchId = s.nextFetchId + 1 ∧
    mapGet (runCalls (t0 :: ts) k s).2.1.inFlight k = some s.nextFetchId ∧
    (∀ tS outcome,
       (gosaSettle tS k outcome (runCalls (t0 :: ts) k s).2.1).1.inFlight =
         mapDelete (runCalls (t0 :: ts) k s).2.1.inFlight k ∧
       mapGet (gosaSettle tS k outcome (runCalls (t0 :: ts) k s).2.1).1.inFlight k = none) := by
  have hnl2 : noLiveValue t0 k (gosaStart t0 k s).cache = true :=
    noLive_after_get t0 t0 k s.cache hnl
  have hf1 : mapGet (gosaStart t0 k s).inFlight k = some s.nextFetchId :=
    mapGet_mapSet_self s.inFlight k s.nextFetchId
  have hjoin := runCalls_joined k s.nextFetchId ts t0 (gosaStart t0 k s) hch hnl2 hf1
  have hrun1 : (runCalls (t0 :: ts) k s).1 =
      GosaResult.started s.nextFetchId :: (runCalls ts k (gosaStart t0 k s)).1 := by
    rw [runCalls_cons, gosaCall_starts t0 k s hnl hnf]
  have hrun2 : (runCalls (t0 :: ts) k s).2.1 = (runCalls ts k (gosaStart t0 k s)).2.1 := by
    rw [runCalls_cons, gosaCall_starts t0 k s hnl hnf]
  refine ⟨?_, ?_, ?_, ?_⟩
  · rw [hrun1, hjoin.1]
  · rw [hrun2, hjoin.2.2]
    rfl
  · rw [hrun2, hjoin.2.1]
    exact hf1
  · intro tS outcome
    rw [hrun2]
    constructor
    · match outcome with
      | some vt => rfl
      | none => rfl
    · have hdel : mapGet
          (mapDelete (runCalls ts k (gosaStart t0 k s)).2.1.inFlight k) k = none := by
        rw [mapGet_mapDelete]
        simp
      match outcome with
      | some vt => exact hdel
      | none => exact hdel

/-! Control-field preservation: every store operation leaves batchDepth,
pendingReadyEmit, ready and settled untouched, keeps the pending set
duplicate-free, and emits no notification while a batch is open. -/

def emitFree (evs : List Ev) : Prop :=
  ∀ ev ∈ evs, (∀ k2, ev ≠ Ev.emit k2) ∧ ev ≠ Ev.emitReady

def opOK (s : CacheState) (r : CacheState × List Ev) : Prop :=
  r.1.batchDepth = s.batchDepth ∧ r.1.pendingReadyEmit = s.pendingReadyEmit ∧
  r.1.ready = s.ready ∧ r.1.settled = s.settled ∧
  (s.pendingKeys.Nodup → r.1.pendingKeys.Nodup) ∧
  (0 < s.batchDepth → emitFree r.2)

theorem emitFree_nil : emitFree [] := by
  intro ev hev
  simp at hev

theorem emitFree_append (a b : List Ev) (ha : emitFree a) (hb : emitFree b) :
    emitFree (a ++ b) := by
  intro ev hev
  rcases List.mem_append.mp hev with h | h
  · exact ha ev h
  · exact hb ev h

theorem emitFree_drv (k : String) : emitFree [Ev.drvRemove k] := by
  intro ev hev
  simp at hev
  subst hev
  simp

theorem opOK_comp (s s1 : CacheState) (e1 : List Ev) (r : CacheState × List Ev)
    (h1 : opOK s (s1, e1)) (h2 : opOK s1 r) : opOK s (r.1, e1 ++ r.2) := by
  obtain ⟨a1, b1, c1, d1, n1, f1⟩ := h1
  obtain ⟨a2, b2, c2, d2, n2, f2⟩ := h2
  refine ⟨by rw [a2, a1], by rw [b2, b1], by rw [c2, c1], by rw [d2, d1],
    fun hn => n2 (n1 hn), fun hb => ?_⟩
  have hb1 : 0 < s1.batchDepth := by rw [a1]; exact hb
  exact emitFree_append e1 r.2 (f1 hb) (f2 hb1)

theorem opOK_pure (s : CacheState) (s' : CacheState) (evs : List Ev)
    (hb : s'.batchDepth = s.batchDepth) (hr : s'.pendingReadyEmit = s.pendingReadyEmit)
    (hrd : s'.ready = s.ready) (hst : s'.settled = s.settled)
    (hp : s'.pendingKeys = s.pendingKeys) (he : emitFree evs) : opOK s (s', evs) :=
  ⟨hb, hr, hrd, hst, fun hn => hp ▸ hn, fun _ => he⟩

theorem pendingAdd_nodup (l : List String) (k : String) (h : l.Nodup) :
    (pendingAdd l k).Nodup := by
  unfold pendingAdd
  by_cases hm : k ∈ l
  · simpa [hm]
  · simp [hm, List.nodup_append, h]

theorem opOK_queueEmitKey (k : String) (s : CacheState) : opOK s (queueEmitKey k s) := by
  unfold queueEmitKey
  by_cases hb : 0 < s.batchDepth
  · simp only [hb, if_true]
    exact ⟨rfl, rfl, rfl, rfl, fun hn => pendingAdd_nodup s.pendingKeys k hn,
      fun _ => emitFree_nil⟩
  · simp only [hb, if_false]
    refine ⟨rfl, rfl, rfl, rfl, fun hn => hn, fun hbb => absurd hbb hb⟩

theorem opOK_dropKey (k : String) (s : CacheState) : opOK s (dropKey k s) := by
  refine opOK_pure s _ _ rfl rfl rfl rfl rfl (emitFree_drv k)

theorem opOK_setInternal (k : String) (e? : Option CacheEntry) (s : CacheState) :
    opOK s (setInternal k e? s) := by
  have hQ : ∀ s1 : CacheState,
      s1.batchDepth = s.batchDepth → s1.pendingReadyEmit = s.pendingReadyEmit →
      s1.ready = s.ready → s1.settled = s.settled → s1.pendingKeys = s.pendingKeys →
      ∀ ev0 : Ev, (∀ k2, ev0 ≠ Ev.emit k2) ∧ ev0 ≠ Ev.emitReady →
      opOK s ((queueEmitKey k s1).1, ev0 :: (queueEmitKey k s1).2) := by
    intro s1 hb hr hrd hst hp ev0 hev0
    have h1 : opOK s (s1, [ev0]) := by
      refine opOK_pure s s1 [ev0] hb hr hrd hst hp ?_
      intro ev hev
      simp at hev
      subst hev
      exact hev0
    have h2 : opOK s1 (queueEmitKey k s1) := opOK_queueEmitKey k s1
    have := opOK_comp s s1 [ev0] (queueEmitKey k s1) h1 h2
    simpa using this
  match e? with
  | none =>
      exact hQ (invalidateKeyCachesForMutation k { s with mirror := mapDelete s.mirror k })
        rfl rfl rfl rfl rfl (Ev.drvRemove k) ⟨fun k2 => by simp, by simp⟩
  | some e =>
      by_cases ht : ttlNonPos e.ttlMs
      · simp only [setInternal, ht, if_true]
        exact hQ (invalidateKeyCachesForMutation k { s with mirror := mapDelete s.mirror k })
          rfl rfl rfl rfl rfl (Ev.drvRemove k) ⟨fun k2 => by simp, by simp⟩
      · simp only [setInternal, ht, if_false]
        exact hQ (invalidateKeyCachesForMutation k { s with mirror := mapSet s.mirror k e })
          rfl rfl rfl rfl rfl (Ev.drvSet k) ⟨fun k2 => by simp, by simp⟩

theorem opOK_getEntry (t : Nat) (k : String) (s : CacheState) :
    opOK s ((getEntry t k s).2.1, (getEntry t k s).2.2) := by
  unfold getEntry
  match hm : mapGet s.mirror k with
  | none => exact opOK_pure s s [] rfl rfl rfl rfl rfl emitFree_nil
  | some e =>
      by_cases ha : isAlive t e
      · simp only [ha, if_true]
        exact opOK_pure s s [] rfl rfl rfl rfl rfl emitFree_nil
      · simp only [ha, if_false]
        exact opOK_dropKey k s

theorem emitFree_drvRemoves (ks : List String) : emitFree (ks.map Ev.drvRemove) := by
  induction ks with
  | nil => exact emitFree_nil
  | cons k ks ih =>
      intro ev hev
      rcases List.mem_cons.mp hev with h | h
      · subst h
        exact ⟨fun k2 => by simp, by simp⟩
      · exact ih ev h

theorem emitFree_drvMany (ks : List String) : emitFree [Ev.drvRemoveMany ks] := by
  intro ev hev
  simp at hev
  subst hev
  simp

theorem emitFree_drvClear (p : String) : emitFree [Ev.drvClearPfx p] := by
  intro ev hev
  simp at hev
  subst hev
  simp

theorem opOK_invalidateMut (k : String) (s : CacheState) :
    opOK s (invalidateKeyCachesForMutation k s, []) :=
  opOK_pure s _ [] rfl rfl rfl rfl rfl emitFree_nil

theorem opOK_prune (t : Nat) : ∀ (l : List String) (s : CacheState),
    opOK s ((pruneListInPlace t l s).2.1, (pruneListInPlace t l s).2.2) := by
  intro l
  induction l with
  | nil =>
      intro s
      exact opOK_pure s s [] rfl rfl rfl rfl rfl emitFree_nil
  | cons k rest ih =>
      intro s
      unfold pruneListInPlace
      match hm : mapGet s.mirror k with
      | none =>
          have h2 := ih (invalidateKeyCachesForMutation k s)
          have := opOK_comp s _ [] _ (opOK_invalidateMut k s) h2
          simpa using this
      | some e =>
          by_cases ha : isAlive t e
          · simp only [ha, if_true]
            exact ih s
          · simp only [ha, if_false]
            exact opOK_comp s (dropKey k s).1 (dropKey k s).2 _ (opOK_dropKey k s)
              (ih (dropKey k s).1)

theorem opOK_computeLoop (t : Nat) (pfx : Option String) :
    ∀ (rows : List (String × CacheEntry)) (s : CacheState),
    opOK s ((computeKeysLoop t pfx rows s).2.1, (computeKeysLoop t pfx rows s).2.2) := by
  intro rows
  induction rows with
  | nil =>
      intro s
      exact opOK_pure s s [] rfl rfl rfl rfl rfl emitFree_nil
  | cons row rest ih =>
      intro s
      rcases row with ⟨k, e⟩
      unfold computeKeysLoop
      by_cases hmk : matchesPfx pfx k = false
      · simp only [hmk, if_true]
        exact ih s
      · simp only [hmk, if_false]
        by_cases ha : isAlive t e
        · simp only [ha, if_true]
          exact ih s
        · simp only [ha, if_false]
          exact opOK_comp s (dropKey k s).1 (dropKey k s).2 _ (opOK_dropKey k s)
            (ih (dropKey k s).1)

theorem opOK_getCachedKeysAll (t : Nat) (s : CacheState) :
    opOK s ((getCachedKeysAll t s).2.1, (getCachedKeysAll t s).2.2) := by
  unfold getCachedKeysAll
  by_cases hv : s.allKeysCache.valid = false
  · simp only [hv, if_true]
    have h1 := opOK_computeLoop t none s.mirror s
    obtain ⟨a, b, c, d, n, f⟩ := h1
    exact ⟨a, b, c, d, n, f⟩
  · simp only [hv, if_false]
    have h1 := opOK_prune t s.allKeysCache.keys s
    obtain ⟨a, b, c, d, n, f⟩ := h1
    exact ⟨a, b, c, d, n, f⟩

theorem opOK_getCachedKeysPfx (t : Nat) (p : String) (s : CacheState) :
    opOK s ((getCachedKeysPfx t p s).2.1, (getCachedKeysPfx t p s).2.2) := by
  unfold getCachedKeysPfx
  match hc : mapGet s.prefixKeysCache p with
  | none =>
      have h1 := opOK_computeLoop t (some p)
        { s with prefixKeysCache :=
            (mapSet s.prefixKeysCache p { keys := [], valid := false }) }.mirror
        { s with prefixKeysCache :=
            (mapSet s.prefixKeysCache p { keys := [], valid := false }) }
      obtain ⟨a, b, c, d, n, f⟩ := h1
      exact ⟨a, b, c, d, n, f⟩
  | some c =>
      by_cases hv : c.valid = false
      · simp only [hv, if_true]
        have h1 := opOK_computeLoop t (some p) s.mirror s
        obtain ⟨a, b, c2, d, n, f⟩ := h1
        refine ⟨a, b, c2, d, n, f⟩
      · simp only [hv, if_false]
        have h1 := opOK_prune t c.keys s
        obtain ⟨a, b, c2, d, n, f⟩ := h1
        match hgot : mapGet (pruneListInPlace t c.keys s).2.1.prefixKeysCache p with
        | some c1 =>
            refine ⟨a, b, c2, d, n, f⟩
        | none =>
            refine ⟨a, b, c2, d, n, f⟩

theorem opOK_getCachedKeys (t : Nat) (pfx : Option String) (s : CacheState) :
    opOK s ((getCachedKeys t pfx s).2.1, (getCachedKeys t pfx s).2.2) := by
  match pfx with
  | none => exact opOK_getCachedKeysAll t s
  | some p =>
      by_cases hp : p = ""
      · simp only [getCachedKeys, hp, if_true]
        exact opOK_getCachedKeysAll t s
      · simp only [getCachedKeys, hp, if_false]
        exact opOK_getCachedKeysPfx t p s

theorem emitAll_go (ks : List String) : ∀ (s : CacheState) (acc : List Ev),
    ks.foldl (fun acc2 k => let r := queueEmitKey k acc2.1; (r.1, acc2.2 ++ r.2)) (s, acc)
      = ((emitAll ks s).1, acc ++ (emitAll ks s).2) := by
  induction ks with
  | nil =>
      intro s acc
      simp [emitAll]
  | cons k ks ih =>
      intro s acc
      simp only [List.foldl_cons]
      rw [ih ((queueEmitKey k s).1) (acc ++ (queueEmitKey k s).2)]
      unfold emitAll
      simp only [List.foldl_cons]
      rw [ih ((queueEmitKey k s).1) ([] ++ (queueEmitKey k s).2)]
      simp
      exact ⟨rfl, rfl⟩

theorem emitAll_cons (k : String) (ks : List String) (s : CacheState) :
    emitAll (k :: ks) s = ((emitAll ks (queueEmitKey k s).1).1,
      (queueEmitKey k s).2 ++ (emitAll ks (queueEmitKey k s).1).2) := by
  unfold emitAll
  simp only [List.foldl_cons]
  rw [emitAll_go ks (queueEmitKey k s).1 ([] ++ (queueEmitKey k s).2)]
  simp
  exact ⟨rfl, rfl⟩

theorem opOK_emitAll : ∀ (ks : List String) (s : CacheState), opOK s (emitAll ks s) := by
  intro ks
  induction ks with
  | nil =>
      intro s
      exact opOK_pure s s [] rfl rfl rfl rfl rfl emitFree_nil
  | cons k ks ih =>
      intro s
      rw [emitAll_cons]
      exact opOK_comp s (queueEmitKey k s).1 (queueEmitKey k s).2 _
        (opOK_queueEmitKey k s) (ih (queueEmitKey k s).1)

/-- The driver events issued by clear() without a prefix. -/
def clearAllDrv (t : Nat) (s : CacheState) : List Ev :=
  if (getCachedKeysAll t s).2.1.caps.hasRemoveMany then
    [Ev.drvRemoveMany (getCachedKeysAll t s).1]
  else (getCachedKeysAll t s).1.map Ev.drvRemove

/-- The state of clear() without a prefix just before the notifications. -/
def clearAllMid (t : Nat) (s : CacheState) : CacheState :=
  let r := getCachedKeysAll t s
  let s2 := { r.2.1 with mirror := r.1.foldl (fun m k => mapDelete m k) r.2.1.mirror }
  { s2 with allKeysCache := { s2.allKeysCache with valid := false },
            prefixKeysCache := (s2.prefixKeysCache.map
              (fun pc => (pc.1, { pc.2 with valid := false }))) }

theorem storeClearAll_eq (t : Nat) (s : CacheState) :
    storeClearAll t s = ((emitAll (getCachedKeysAll t s).1 (clearAllMid t s)).1,
      ((getCachedKeysAll t s).2.2 ++ clearAllDrv t s) ++
        (emitAll (getCachedKeysAll t s).1 (clearAllMid t s)).2) := by
  unfold storeClearAll clearAllDrv clearAllMid
  rcases hE : getCachedKeysAll t s with ⟨ks, s1, evs⟩
  rfl

theorem emitFree_clearAllDrv (t : Nat) (s : CacheState) : emitFree (clearAllDrv t s) := by
  unfold clearAllDrv
  by_cases hc : (getCachedKeysAll t s).2.1.caps.hasRemoveMany
  · simp only [hc, if_true]
    exact emitFree_drvMany _
  · simp only [hc, if_false]
    exact emitFree_drvRemoves _

theorem opOK_clearAll (t : Nat) (s : CacheState) : opOK s (storeClearAll t s) := by
  rw [storeClearAll_eq, List.append_assoc]
  have h1 := opOK_getCachedKeysAll t s
  have h2 : opOK (getCachedKeysAll t s).2.1 (clearAllMid t s, clearAllDrv t s) :=
    opOK_pure _ _ _ rfl rfl rfl rfl rfl (emitFree_clearAllDrv t s)
  have h3 := opOK_emitAll (getCachedKeysAll t s).1 (clearAllMid t s)
  exact opOK_comp s _ _ _ h1 (opOK_comp _ _ _ _ h2 h3)

/-- The driver events issued by clear(prefix). -/
def clearPfxDrv (t : Nat) (p : String) (s : CacheState) : List Ev :=
  if (getCachedKeysPfx t p s).2.1.caps.hasClearPfx then [Ev.drvClearPfx p]
  else if (getCachedKeysPfx t p s).2.1.caps.hasRemoveMany then
    [Ev.drvRemoveMany (getCachedKeysPfx t p s).1]
  else (getCachedKeysPfx t p s).1.map Ev.drvRemove

/-- The state of clear(prefix) just before the notifications. -/
def clearPfxMid (t : Nat) (p : String) (s : CacheState) : CacheState :=
  let r := getCachedKeysPfx t p s
  let s2 := { r.2.1 with mirror := r.1.foldl (fun m k => mapDelete m k) r.2.1.mirror }
  r.1.foldl (fun acc k => invalidatePrefixCachesForKey k acc)
    (invalidatePfxCacheOne p (invalidateAllKeysCache s2))

theorem storeClearPfx_eq (t : Nat) (p : String) (s : CacheState) :
    storeClearPfx t p s = ((emitAll (getCachedKeysPfx t p s).1 (clearPfxMid t p s)).1,
      ((getCachedKeysPfx t p s).2.2 ++ clearPfxDrv t p s) ++
        (emitAll (getCachedKeysPfx t p s).1 (clearPfxMid t p s)).2) := by
  unfold storeClearPfx clearPfxDrv clearPfxMid
  rcases hE : getCachedKeysPfx t p s with ⟨ks, s1, evs⟩
  rfl

theorem emitFree_clearPfxDrv (t : Nat) (p : String) (s : CacheState) :
    emitFree (clearPfxDrv t p s) := by
  unfold clearPfxDrv
  by_cases hc : (getCachedKeysPfx t p s).2.1.caps.hasClearPfx
  · simp only [hc, if_true]
    exact emitFree_drvClear p
  · simp only [hc, if_false]
    by_cases hc2 : (getCachedKeysPfx t p s).2.1.caps.hasRemoveMany
    · simp only [hc2, if_true]
      exact emitFree_drvMany _
    · simp only [hc2, if_false]
      exact emitFree_drvRemoves _

theorem foldInvalidate_fields : ∀ (ks : List String) (s : CacheState),
    (ks.foldl (fun acc k => invalidatePrefixCachesForKey k acc) s).batchDepth = s.batchDepth ∧
    (ks.foldl (fun acc k => invalidatePrefixCachesForKey k acc) s).pendingReadyEmit
      = s.pendingReadyEmit ∧
    (ks.foldl (fun acc k => invalidatePrefixCachesForKey k acc) s).ready = s.ready ∧
    (ks.foldl (fun acc k => invalidatePrefixCachesForKey k acc) s).settled = s.settled ∧
    (ks.foldl (fun acc k => invalidatePrefixCachesForKey k acc) s).pendingKeys
      = s.pendingKeys ∧
    (ks.foldl (fun acc k => invalidatePrefixCachesForKey k acc) s).mirror = s.mirror ∧
    (ks.foldl (fun acc k => invalidatePrefixCachesForKey k acc) s).allKeysCache
      = s.allKeysCache := by
  intro ks
  induction ks with
  | nil =>
      intro s
      exact ⟨rfl, rfl, rfl, rfl, rfl, rfl, rfl⟩
  | cons k ks ih =>
      intro s
      simp only [List.foldl_cons]
      obtain ⟨a, b, c, d, e, f, g⟩ := ih (invalidatePrefixCachesForKey k s)
      exact ⟨a, b, c, d, e, f, g⟩

theorem opOK_clearPfx (t : Nat) (p : String) (s : CacheState) :
    opOK s (storeClearPfx t p s) := by
  rw [storeClearPfx_eq, List.append_assoc]
  have h1 := opOK_getCachedKeysPfx t p s
  have h2 : opOK (getCachedKeysPfx t p s).2.1 (clearPfxMid t p s, clearPfxDrv t p s) := by
    obtain ⟨a, b, c, d, e, _, _⟩ := foldInvalidate_fields (getCachedKeysPfx t p s).1
      (invalidatePfxCacheOne p (invalidateAllKeysCache
        { (getCachedKeysPfx t p s).2.1 with
          mirror := (getCachedKeysPfx t p s).1.foldl (fun m k => mapDelete m k)
            (getCachedKeysPfx t p s).2.1.mirror }))
    exact opOK_pure _ _ _ a b c d e (emitFree_clearPfxDrv t p s)
  have h3 := opOK_emitAll (getCachedKeysPfx t p s).1 (clearPfxMid t p s)
  exact opOK_comp s _ _ _ h1 (opOK_comp _ _ _ _ h2 h3)

theorem opOK_storeClear (t : Nat) (pfx : Option String) (s : CacheState) :
    opOK s (storeClear t pfx s) := by
  match pfx with
  | none => exact opOK_clearAll t s
  | some p =>
      by_cases hp : p = ""
      · simp only [storeClear, hp, if_true]
        exact opOK_clearAll t s
      · simp only [storeClear, hp, if_false]
        exact opOK_clearPfx t p s

theorem opOK_storeGet (t : Nat) (k : String) (s : CacheState) :
    opOK s ((storeGet t k s).2.1, (storeGet t k s).2.2) := by
  unfold storeGet
  rcases hE : getEntry t k s with ⟨e?, s1, evs⟩
  have h1 := opOK_getEntry t k s
  rw [hE] at h1
  match e? with
  | some e => exact h1
  | none => exact h1

theorem opOK_storeHas (t : Nat) (k : String) (s : CacheState) :
    opOK s ((storeHas t k s).2.1, (storeHas t k s).2.2) := by
  unfold storeHas
  rcases hE : getEntry t k s with ⟨e?, s1, evs⟩
  have h1 := opOK_getEntry t k s
  rw [hE] at h1
  match e? with
  | some e => exact h1
  | none => exact h1

theorem opOK_storeTouch (t : Nat) (k : String) (ttl : Option Int) (s : CacheState) :
    opOK s (storeTouch t k ttl s) := by
  unfold storeTouch
  rcases hE : getEntry t k s with ⟨e?, s1, evs⟩
  have h1 := opOK_getEntry t k s
  rw [hE] at h1
  match e? with
  | none => exact h1
  | some e =>
      exact opOK_comp s s1 evs _ h1 (opOK_setInternal k _ s1)

theorem opOK_storeSet (t : Nat) (k : String) (v : Option Nat) (ttl : Option Int)
    (s : CacheState) : opOK s (storeSet t k v ttl s) :=
  opOK_setInternal k _ s

theorem opOK_runAct (a : Act) (s : CacheState)
    (hna : a ≠ Act.enterBatch) (hnb : a ≠ Act.exitBatch) : opOK s (runAct a s) := by
  match a with
  | .setA t k v ttl => exact opOK_storeSet t k v ttl s
  | .removeA k => exact opOK_setInternal k none s
  | .clearA t pfx => exact opOK_storeClear t pfx s
  | .keysA t pfx => exact opOK_getCachedKeys t pfx s
  | .getA t k => exact opOK_storeGet t k s
  | .hasA t k => exact opOK_storeHas t k s
  | .touchA t k ttl => exact opOK_storeTouch t k ttl s
  | .emitA k => exact opOK_queueEmitKey k s

theorem runActs_append : ∀ (l1 l2 : List Act) (s : CacheState),
    runActs (l1 ++ l2) s =
      ((runActs l2 (runActs l1 s).1).1,
       (runActs l1 s).2 ++ (runActs l2 (runActs l1 s).1).2) := by
  intro l1
  induction l1 with
  | nil =>
      intro l2 s
      simp [runActs]
  | cons a l1 ih =>
      intro l2 s
      have h1 : runActs ((a :: l1) ++ l2) s =
          ((runActs (l1 ++ l2) (runAct a s).1).1,
           (runAct a s).2 ++ (runActs (l1 ++ l2) (runAct a s).1).2) := rfl
      have h2 : runActs (a :: l1) s =
          ((runActs l1 (runAct a s).1).1,
           (runAct a s).2 ++ (runActs l1 (runAct a s).1).2) := rfl
      rw [h1, ih l2 (runAct a s).1, h2]
      simp [List.append_assoc]

theorem runActs_inBatch : ∀ (acts : List Act) (n : Nat) (s : CacheState),
    nestOK acts n = true → s.batchDepth = n + 1 →
    (runActs acts s).1.batchDepth = 1 ∧
    (runActs acts s).1.pendingReadyEmit = s.pendingReadyEmit ∧
    (runActs acts s).1.ready = s.ready ∧
    (runActs acts s).1.settled = s.settled ∧
    (s.pendingKeys.Nodup → (runActs acts s).1.pendingKeys.Nodup) ∧
    emitFree (runActs acts s).2 := by
  intro acts
  induction acts with
  | nil =>
      intro n s hok hd
      simp only [nestOK, beq_iff_eq] at hok
      subst hok
      exact ⟨hd, rfl, rfl, rfl, fun h => h, emitFree_nil⟩
  | cons a rest ih =>
      intro n s hok hd
      match a with
      | Act.enterBatch =>
          simp only [nestOK] at hok
          have hd1 : ({ s with batchDepth := s.batchDepth + 1 } : CacheState).batchDepth
              = (n + 1) + 1 := by
            simp [hd]
          have hres := ih (n + 1) { s with batchDepth := s.batchDepth + 1 } hok hd1
          simp only [runActs, runAct]
          refine ⟨hres.1, hres.2.1, hres.2.2.1, hres.2.2.2.1, hres.2.2.2.2.1, ?_⟩
          simpa using hres.2.2.2.2.2
      | Act.exitBatch =>
          simp only [nestOK, Bool.and_eq_true, decide_eq_true_eq] at hok
          obtain ⟨hn, hok2⟩ := hok
          have hflush : runAct Act.exitBatch s =
              ({ s with batchDepth := s.batchDepth - 1 }, []) := by
            simp only [runAct, flushIfZero]
            rw [if_neg (by omega)]
          have hd1 : ({ s with batchDepth := s.batchDepth - 1 } : CacheState).batchDepth
              = (n - 1) + 1 := by
            simp [hd]
            omega
          have hres := ih (n - 1) { s with batchDepth := s.batchDepth - 1 } hok2 hd1
          simp only [runActs, hflush]
          refine ⟨hres.1, hres.2.1, hres.2.2.1, hres.2.2.2.1, hres.2.2.2.2.1, ?_⟩
          simpa using hres.2.2.2.2.2
      | Act.setA t k v ttl =>
          have hok2 : nestOK rest n = true := hok
          have hop := opOK_runAct (Act.setA t k v ttl) s (by simp) (by simp)
          obtain ⟨ha, hb, hc, hdd, hn, hf⟩ := hop
          have hd1 : (runAct (Act.setA t k v ttl) s).1.batchDepth = n + 1 := by
            rw [ha, hd]
          have hres := ih n (runAct (Act.setA t k v ttl) s).1 hok2 hd1
          simp only [runActs]
          refine ⟨hres.1, by rw [hres.2.1, hb], by rw [hres.2.2.1, hc],
            by rw [hres.2.2.2.1, hdd], fun hnp => hres.2.2.2.2.1 (hn hnp), ?_⟩
          exact emitFree_append _ _ (hf (by omega)) hres.2.2.2.2.2
      | Act.removeA k =>
          have hok2 : nestOK rest n = true := hok
          have hop := opOK_runAct (Act.removeA k) s (by simp) (by simp)
          obtain ⟨ha, hb, hc, hdd, hn, hf⟩ := hop
          have hd1 : (runAct (Act.removeA k) s).1.batchDepth = n + 1 := by
            rw [ha, hd]
          have hres := ih n (runAct (Act.removeA k) s).1 hok2 hd1
          simp only [runActs]
          refine ⟨hres.1, by rw [hres.2.1, hb], by rw [hres.2.2.1, hc],
            by rw [hres.2.2.2.1, hdd], fun hnp => hres.2.2.2.2.1 (hn hnp), ?_⟩
          exact emitFree_append _ _ (hf (by omega)) hres.2.2.2.2.2
      | Act.clearA t pfx =>
          have hok2 : nestOK rest n = true := hok
          have hop := opOK_runAct (Act.clearA t pfx) s (by simp) (by simp)
          obtain ⟨ha, hb, hc, hdd, hn, hf⟩ := hop
          have hd1 : (runAct (Act.clearA t pfx) s).1.batchDepth = n + 1 := by
            rw [ha, hd]
          have hres := ih n (runAct (Act.clearA t pfx) s).1 hok2 hd1
          simp only [runActs]
          refine ⟨hres.1, by rw [hres.2.1, hb], by rw [hres.2.2.1, hc],
            by rw [hres.2.2.2.1, hdd], fun hnp => hres.2.2.2.2.1 (hn hnp), ?_⟩
          exact emitFree_append _ _ (hf (by omega)) hres.2.2.2.2.2
      | Act.keysA t pfx =>
          have hok2 : nestOK rest n = true := hok
          have hop := opOK_runAct (Act.keysA t pfx) s (by simp) (by simp)
          obtain ⟨ha, hb, hc, hdd, hn, hf⟩ := hop
          have hd1 : (runAct (Act.keysA t pfx) s).1.batchDepth = n + 1 := by
            rw [ha, hd]
          have hres := ih n (runAct (Act.keysA t pfx) s).1 hok2 hd1
          simp only [runActs]
          refine ⟨hres.1, by rw [hres.2.1, hb], by rw [hres.2.2.1, hc],
            by rw [hres.2.2.2.1, hdd], fun hnp => hres.2.2.2.2.1 (hn hnp), ?_⟩
          exact emitFree_append _ _ (hf (by omega)) hres.2.2.2.2.2
      | Act.getA t k =>
          have hok2 : nestOK rest n = true := hok
          have hop := opOK_runAct (Act.getA t k) s (by simp) (by simp)
          obtain ⟨ha, hb, hc, hdd, hn, hf⟩ := hop
          have hd1 : (runAct (Act.getA t k) s).1.batchDepth = n + 1 := by
            rw [ha, hd]
          have hres := ih n (runAct (Act.getA t k) s).1 hok2 hd1
          simp only [runActs]
          refine ⟨hres.1, by rw [hres.2.1, hb], by rw [hres.2.2.1, hc],
            by rw [hres.2.2.2.1, hdd], fun hnp => hres.2.2.2.2.1 (hn hnp), ?_⟩
          exact emitFree_append _ _ (hf (by omega)) hres.2.2.2.2.2
      | Act.hasA t k =>
          have hok2 : nestOK rest n = true := hok
          have hop := opOK_runAct (Act.hasA t k) s (by simp) (by simp)
          obtain ⟨ha, hb, hc, hdd, hn, hf⟩ := hop
          have hd1 : (runAct (Act.hasA t k) s).1.batchDepth = n + 1 := by
            rw [ha, hd]
          have hres := ih n (runAct (Act.hasA t k) s).1 hok2 hd1
          simp only [runActs]
          refine ⟨hres.1, by rw [hres.2.1, hb], by rw [hres.2.2.1, hc],
            by rw [hres.2.2.2.1, hdd], fun hnp => hres.2.2.2.2.1 (hn hnp), ?_⟩
          exact emitFree_append _ _ (hf (by omega)) hres.2.2.2.2.2
      | Act.touchA t k ttl =>
          have hok2 : nestOK rest n = true := hok
          have hop := opOK_runAct (Act.touchA t k ttl) s (by simp) (by simp)
          obtain ⟨ha, hb, hc, hdd, hn, hf⟩ := hop
          have hd1 : (runAct (Act.touchA t k ttl) s).1.batchDepth = n + 1 := by
            rw [ha, hd]
          have hres := ih n (runAct (Act.touchA t k ttl) s).1 hok2 hd1
          simp only [runActs]
          refine ⟨hres.1, by rw [hres.2.1, hb], by rw [hres.2.2.1, hc],
            by rw [hres.2.2.2.1, hdd], fun hnp => hres.2.2.2.2.1 (hn hnp), ?_⟩
          exact emitFree_append _ _ (hf (by omega)) hres.2.2.2.2.2
      | Act.emitA k =>
          have hok2 : nestOK rest n = true := hok
          have hop := opOK_runAct (Act.emitA k) s (by simp) (by simp)
          obtain ⟨ha, hb, hc, hdd, hn, hf⟩ := hop
          have hd1 : (runAct (Act.emitA k) s).1.batchDepth = n + 1 := by
            rw [ha, hd]
          have hres := ih n (runAct (Act.emitA k) s).1 hok2 hd1
          simp only [runActs]
          refine ⟨hres.1, by rw [hres.2.1, hb], by rw [hres.2.2.1, hc],
            by rw [hres.2.2.2.1, hdd], fun hnp => hres.2.2.2.2.1 (hn hnp), ?_⟩
          exact emitFree_append _ _ (hf (by omega)) hres.2.2.2.2.2

theorem runActs_cons (a : Act) (rest : List Act) (s : CacheState) :
    runActs (a :: rest) s =
      ((runActs rest (runAct a s).1).1,
       (runAct a s).2 ++ (runActs rest (runAct a s).1).2) := rfl

theorem flushIfZero_ready (s : CacheState) :
    (flushIfZero s).1.ready = s.ready ∧ (flushIfZero s).1.settled = s.settled := by
  unfold flushIfZero
  by_cases hz : s.batchDepth = 0
  · simp only [hz, if_true]
    by_cases hr : s.pendingReadyEmit
    · simp [hr]
    · simp [hr]
  · simp [hz]

theorem runAct_ready (a : Act) (s : CacheState) :
    (runAct a s).1.ready = s.ready ∧ (runAct a s).1.settled = s.settled := by
  match a with
  | Act.enterBatch => exact ⟨rfl, rfl⟩
  | Act.exitBatch =>
      exact flushIfZero_ready { s with batchDepth := s.batchDepth - 1 }
  | Act.setA t k v ttl =>
      have h := opOK_runAct (Act.setA t k v ttl) s (by simp) (by simp)
      exact ⟨h.2.2.1, h.2.2.2.1⟩
  | Act.removeA k =>
      have h := opOK_runAct (Act.removeA k) s (by simp) (by simp)
      exact ⟨h.2.2.1, h.2.2.2.1⟩
  | Act.clearA t pfx =>
      have h := opOK_runAct (Act.clearA t pfx) s (by simp) (by simp)
      exact ⟨h.2.2.1, h.2.2.2.1⟩
  | Act.keysA t pfx =>
      have h := opOK_runAct (Act.keysA t pfx) s (by simp) (by simp)
      exact ⟨h.2.2.1, h.2.2.2.1⟩
  | Act.getA t k =>
      have h := opOK_runAct (Act.getA t k) s (by simp) (by simp)
      exact ⟨h.2.2.1, h.2.2.2.1⟩
  | Act.hasA t k =>
      have h := opOK_runAct (Act.hasA t k) s (by simp) (by simp)
      exact ⟨h.2.2.1, h.2.2.2.1⟩
  | Act.touchA t k ttl =>
      have h := opOK_runAct (Act.touchA t k ttl) s (by simp) (by simp)
      exact ⟨h.2.2.1, h.2.2.2.1⟩
  | Act.emitA k =>
      have h := opOK_runAct (Act.emitA k) s (by simp) (by simp)
      exact ⟨h.2.2.1, h.2.2.2.1⟩

theorem runActs_ready : ∀ (acts : List Act) (s : CacheState),
    (runActs acts s).1.ready = s.ready ∧ (runActs acts s).1.settled = s.settled := by
  intro acts
  induction acts with
  | nil => intro s; exact ⟨rfl, rfl⟩
  | cons a rest ih =>
      intro s
      have h1 := runAct_ready a s
      have h2 := ih (runAct a s).1
      rw [runActs_cons]
      exact ⟨by rw [h2.1, h1.1], by rw [h2.2, h1.2]⟩

theorem hydrateInstall_fields (cleanup : Bool) (t : Nat) :
    ∀ (rows : List (String × Option CacheEntry)) (s : CacheState),
      (hydrateInstall cleanup t rows s).1.batchDepth = s.batchDepth ∧
      (hydrateInstall cleanup t rows s).1.pendingKeys = s.pendingKeys ∧
      (hydrateInstall cleanup t rows s).1.pendingReadyEmit = s.pendingReadyEmit ∧
      (hydrateInstall cleanup t rows s).1.ready = s.ready ∧
      (hydrateInstall cleanup t rows s).1.settled = s.settled := by
  intro rows
  induction rows with
  | nil =>
      intro s
      exact ⟨rfl, rfl, rfl, rfl, rfl⟩
  | cons row rows ih =>
      intro s
      unfold hydrateInstall
      match hrow : row.2 with
      | none => exact ih s
      | some e =>
          by_cases hc : cleanup && !isAlive t e
          · simp only [hc, if_true]
            exact ih s
          · simp only [hc, if_false]
            exact ih { s with mirror := mapSet s.mirror row.1 e }

theorem count_ready_drvRemoves (ks : List String) :
    (ks.map Ev.drvRemove).count Ev.emitReady = 0 := by
  induction ks with
  | nil => rfl
  | cons k ks ih => simpa [List.count_cons] using ih

theorem flushIfZero_zero (s : CacheState) (hz : s.batchDepth = 0) :
    flushIfZero s =
      (if s.pendingReadyEmit then
        ({ s with pendingKeys := [], pendingReadyEmit := false },
         s.pendingKeys.map Ev.emit ++ [Ev.emitReady])
       else ({ s with pendingKeys := [] }, s.pendingKeys.map Ev.emit)) := by
  unfold flushIfZero
  by_cases hr : s.pendingReadyEmit <;> simp [hz, hr]

theorem queueEmitReady_ready (s : CacheState) :
    (queueEmitReady s).1.ready = s.ready ∧ (queueEmitReady s).1.settled = s.settled := by
  unfold queueEmitReady
  by_cases hb : 0 < s.batchDepth <;> simp [hb]

/-- The bulk-or-per-key driver deletions issued after hydration for rows that
were dead on arrival. -/
def hydrateDrvEvs (t : Nat) (rows : List (String × Option CacheEntry)) (cleanup : Bool)
    (s : CacheState) : List Ev :=
  if (hydrateInstall cleanup t rows { s with batchDepth := s.batchDepth + 1 }).2.isEmpty
  then []
  else if s.caps.hasRemoveMany then
    [Ev.drvRemoveMany (hydrateInstall cleanup t rows { s with batchDepth := s.batchDepth + 1 }).2]
  else (hydrateInstall cleanup t rows { s with batchDepth := s.batchDepth + 1 }).2.map
    Ev.drvRemove

theorem count_ready_hydrateDrvEvs (t : Nat) (rows : List (String × Option CacheEntry))
    (cleanup : Bool) (s : CacheState) :
    (hydrateDrvEvs t rows cleanup s).count Ev.emitReady = 0 := by
  unfold hydrateDrvEvs
  by_cases h1 : (hydrateInstall cleanup t rows
      { s with batchDepth := s.batchDepth + 1 }).2.isEmpty
  · simp [h1]
  · simp only [h1, if_false]
    by_cases h2 : s.caps.hasRemoveMany
    · simp [h2, List.count_cons]
    · simp only [h2, if_false]
      exact count_ready_drvRemoves _

/-- C3: for every batch body (any action list fn performs, including nested
batch brackets; a throwing fn yields exactly such a well-bracketed prefix
because every enter has its finally-run exit), the outermost batch leaves
batchDepth at 0 and the pending set empty, delivers no key or ready
notification while the body runs, delivers at most one notification per
distinct key (the flushed pending set has no duplicates) plus at most one
ready notification, and flushes them only after the body has finished. -/
theorem batch_coalesces_and_flushes (acts : List Act) (s : CacheState)
    (hd : s.batchDepth = 0) (hp : s.pendingKeys = []) (hok : nestOK acts 0 = true) :
    (storeBatch acts s).1.batchDepth = 0 ∧
    (storeBatch acts s).1.pendingKeys = [] ∧
    emitFree (runActs acts { s with batchDepth := s.batchDepth + 1 }).2 ∧
    (runActs acts { s with batchDepth := s.batchDepth + 1 }).1.pendingKeys.Nodup ∧
    (storeBatch acts s).2 =
      (runActs acts { s with batchDepth := s.batchDepth + 1 }).2 ++
        (if (runActs acts { s with batchDepth := s.batchDepth + 1 }).1.pendingReadyEmit
         then (runActs acts { s with batchDepth := s.batchDepth + 1 }).1.pendingKeys.map
           Ev.emit ++ [Ev.emitReady]
         else (runActs acts { s with batchDepth := s.batchDepth + 1 }).1.pendingKeys.map
           Ev.emit) := by
  have hd1 : ({ s with batchDepth := s.batchDepth + 1 } : CacheState).batchDepth = 0 + 1 := by
    simp [hd]
  have hin := runActs_inBatch acts 0 { s with batchDepth := s.batchDepth + 1 } hok hd1
  have hnodup : (runActs acts { s with batchDepth := s.batchDepth + 1 }).1.pendingKeys.Nodup := by
    apply hin.2.2.2.2.1
    simp [hp]
  have hzero : ({ (runActs acts { s with batchDepth := s.batchDepth + 1 }).1 with
      batchDepth :=
        (runActs acts { s with batchDepth := s.batchDepth + 1 }).1.batchDepth - 1 }
        : CacheState).batchDepth = 0 := by
    simp [hin.1]
  have hexit : runAct Act.exitBatch (runActs acts { s with batchDepth := s.batchDepth + 1 }).1 =
      flushIfZero { (runActs acts { s with batchDepth := s.batchDepth + 1 }).1 with
        batchDepth :=
          (runActs acts { s with batchDepth := s.batchDepth + 1 }).1.batchDepth - 1 } := rfl
  have hflush := flushIfZero_zero _ hzero
  have hsplit : storeBatch acts s =
      ((runAct Act.exitBatch (runActs acts { s with batchDepth := s.batchDepth + 1 }).1).1,
       (runActs acts { s with batchDepth := s.batchDepth + 1 }).2 ++
         ((runAct Act.exitBatch
            (runActs acts { s with batchDepth := s.batchDepth + 1 }).1).2 ++ [])) := by
    unfold storeBatch
    rw [runActs_cons]
    have henter : runAct Act.enterBatch s = ({ s with batchDepth := s.batchDepth + 1 }, []) :=
      rfl
    rw [henter]
    rw [runActs_append acts [Act.exitBatch] { s with batchDepth := s.batchDepth + 1 }]
    rw [runActs_cons]
    simp [runActs]
  rw [hexit, hflush] at hsplit
  rw [hsplit]
  refine ⟨?_, ?_, hin.2.2.2.2.2, hnodup, ?_⟩
  · by_cases hre :
        (runActs acts { s with batchDepth := s.batchDepth + 1 }).1.pendingReadyEmit
    · simp [hre, hin.1]
    · simp [hre, hin.1]
  · by_cases hre :
        (runActs acts { s with batchDepth := s.batchDepth + 1 }).1.pendingReadyEmit
    · simp [hre]
    · simp [hre]
  · by_cases hre :
        (runActs acts { s with batchDepth := s.batchDepth + 1 }).1.pendingReadyEmit
    · simp [hre]
    · simp [hre]

theorem flushIfZero_depth (s : CacheState) :
    (flushIfZero s).1.batchDepth = s.batchDepth := by
  unfold flushIfZero
  by_cases hz : s.batchDepth = 0
  · by_cases hrr : s.pendingReadyEmit <;> simp [hz, hrr]
  · simp [hz]

/-- The state after hydration's batched install and flush. -/
def bootMid (t : Nat) (rows : List (String × Option CacheEntry)) (cleanup : Bool)
    (s : CacheState) : CacheState :=
  (flushIfZero { (hydrateInstall cleanup t rows
      { s with batchDepth := s.batchDepth + 1 }).1 with
    batchDepth := (hydrateInstall cleanup t rows
      { s with batchDepth := s.batchDepth + 1 }).1.batchDepth - 1 }).1

/-- The events of hydration's batch flush. -/
def bootFlushEvs (t : Nat) (rows : List (String × Option CacheEntry)) (cleanup : Bool)
    (s : CacheState) : List Ev :=
  (flushIfZero { (hydrateInstall cleanup t rows
      { s with batchDepth := s.batchDepth + 1 }).1 with
    batchDepth := (hydrateInstall cleanup t rows
      { s with batchDepth := s.batchDepth + 1 }).1.batchDepth - 1 }).2

/-- The state of a successful bootstrap just before the ready notification. -/
def bootPre (t : Nat) (rows : List (String × Option CacheEntry)) (cleanup : Bool)
    (s : CacheState) : CacheState :=
  { bootMid t rows cleanup s with
    allKeysCache := { (bootMid t rows cleanup s).allKeysCache with valid := false },
    prefixKeysCache := ((bootMid t rows cleanup s).prefixKeysCache.map
      (fun pc => (pc.1, { pc.2 with valid := false }))),
    ready := true,
    settled := promiseSettle true (bootMid t rows cleanup s).settled }

theorem hydrateBoot_ok_eq (t : Nat) (rows : List (String × Option CacheEntry))
    (cleanup : Bool) (s : CacheState) :
    hydrateBoot t rows true cleanup s =
      ((queueEmitReady (bootPre t rows cleanup s)).1,
       (bootFlushEvs t rows cleanup s ++ hydrateDrvEvs t rows cleanup s) ++
         (queueEmitReady (bootPre t rows cleanup s)).2) := by
  unfold hydrateBoot bootPre bootMid bootFlushEvs hydrateDrvEvs
  dsimp only
  rcases hE : hydrateInstall cleanup t rows { s with batchDepth := s.batchDepth + 1 }
    with ⟨si, dl⟩
  rfl

/-- C9: readiness settles exactly once — the bootstrap resolves the promise
when hydration completed without driver error and rejects it when the driver
raised (settled keeps the first settlement only), exactly one ready
notification fires, isReady becomes true, and no subsequent sequence of
store operations ever makes isReady false again or changes the settled
outcome any current or future readyPromise caller observes. -/
theorem readiness_settles_once (t : Nat) (rows : List (String × Option CacheEntry))
    (ok cleanup : Bool) (s : CacheState)
    (hs : s.settled = none) (hb : s.batchDepth = 0) (hp : s.pendingKeys = [])
    (hr : s.pendingReadyEmit = false) :
    (hydrateBoot t rows ok cleanup s).1.ready = true ∧
    (hydrateBoot t rows ok cleanup s).1.settled = some ok ∧
    (hydrateBoot t rows ok cleanup s).2.count Ev.emitReady = 1 ∧
    (∀ acts : List Act,
       (runActs acts (hydrateBoot t rows ok cleanup s).1).1.ready = true ∧
       (runActs acts (hydrateBoot t rows ok cleanup s).1).1.settled = some ok) := by
  match ok with
  | false =>
      have hcore : hydrateBoot t rows false cleanup s =
          ({ s with ready := true, settled := promiseSettle false s.settled },
           [Ev.emitReady]) := by
        unfold hydrateBoot queueEmitReady
        simp [hb]
      rw [hcore]
      have hps : promiseSettle false s.settled = some false := by
        rw [hs]
        rfl
      refine ⟨rfl, hps, by simp [List.count_cons], ?_⟩
      intro acts
      have hrr := runActs_ready acts
        { s with ready := true, settled := promiseSettle false s.settled }
      exact ⟨by rw [hrr.1], by rw [hrr.2, hps]⟩
  | true =>
      obtain ⟨hib, hik, hire, hird, hist⟩ := hydrateInstall_fields cleanup t rows
        { s with batchDepth := s.batchDepth + 1 }
      have hmidsettle : (bootMid t rows cleanup s).settled = none := by
        unfold bootMid
        rw [(flushIfZero_ready _).2]
        simpa [hist] using hs
      have hmiddepth : (bootMid t rows cleanup s).batchDepth = 0 := by
        unfold bootMid
        rw [flushIfZero_depth]
        show (hydrateInstall cleanup t rows
          { s with batchDepth := s.batchDepth + 1 }).1.batchDepth - 1 = 0
        rw [hib]
        simp [hb]
      have hpresettle : (bootPre t rows cleanup s).settled = some true := by
        unfold bootPre
        dsimp only
        rw [hmidsettle]
        rfl
      have hpredepth : (bootPre t rows cleanup s).batchDepth = 0 := hmiddepth
      have hready : (queueEmitReady (bootPre t rows cleanup s)) =
          (bootPre t rows cleanup s, [Ev.emitReady]) := by
        unfold queueEmitReady
        rw [if_neg (by simp [hpredepth])]
      have hin_pend : (hydrateInstall cleanup t rows
          { s with batchDepth := s.batchDepth + 1 }).1.pendingKeys = [] := by
        rw [hik]
        exact hp
      have hin_flag : (hydrateInstall cleanup t rows
          { s with batchDepth := s.batchDepth + 1 }).1.pendingReadyEmit = false := by
        rw [hire]
        exact hr
      have hzb : ({ (hydrateInstall cleanup t rows
          { s with batchDepth := s.batchDepth + 1 }).1 with
          batchDepth := (hydrateInstall cleanup t rows
            { s with batchDepth := s.batchDepth + 1 }).1.batchDepth - 1 }
          : CacheState).batchDepth = 0 := by
        show (hydrateInstall cleanup t rows
          { s with batchDepth := s.batchDepth + 1 }).1.batchDepth - 1 = 0
        rw [hib]
        simp [hb]
      have hflevs : bootFlushEvs t rows cleanup s = [] := by
        unfold bootFlushEvs
        rw [flushIfZero_zero _ hzb]
        simp [hin_flag, hin_pend]
      rw [hydrateBoot_ok_eq, hready]
      refine ⟨rfl, hpresettle, ?_, ?_⟩
      · show (((bootFlushEvs t rows cleanup s ++ hydrateDrvEvs t rows cleanup s) ++
          [Ev.emitReady]).count Ev.emitReady) = 1
        rw [hflevs]
        simp [List.count_append, count_ready_hydrateDrvEvs t rows cleanup s, List.count_cons]
      · intro acts
        have hrr := runActs_ready acts (bootPre t rows cleanup s)
        refine ⟨?_, ?_⟩
        · rw [hrr.1]
          rfl
        · rw [hrr.2, hpresettle]

/-! The keys() machinery: characterizing computeKeysLoop and
pruneListInPlace, and preservation of the key-list-cache invariant. -/

/-- Folding dropKey over a list of keys. -/
def dropAll (ks : List String) (s : CacheState) : CacheState :=
  ks.foldl (fun s2 k => (dropKey k s2).1) s

theorem dropAll_nil (s : CacheState) : dropAll [] s = s := rfl

theorem dropAll_cons (k : String) (ks : List String) (s : CacheState) :
    dropAll (k :: ks) s = dropAll ks (dropKey k s).1 := rfl

theorem CacheInv_dropAll : ∀ (ks : List String) (s : CacheState),
    CacheInv s → CacheInv (dropAll ks s) := by
  intro ks
  induction ks with
  | nil => intro s h; exact h
  | cons k ks ih =>
      intro s h
      rw [dropAll_cons]
      exact ih _ (CacheInv_dropKey k s h)

theorem dropKey_mirror (k : String) (s : CacheState) :
    (dropKey k s).1.mirror = mapDelete s.mirror k := rfl

theorem mapDelete_comm_filter {α : Type} (P : String × α → Bool) (m : List (String × α))
    (k : String) : (mapDelete m k).filter P = mapDelete (m.filter P) k := by
  induction m with
  | nil => simp [mapDelete]
  | cons hd tl ih =>
      rcases hd with ⟨k0, v0⟩
      by_cases hk : k0 = k
      · subst hk
        by_cases hP : P (k0, v0) <;> simp [mapDelete, List.filter_cons, hP, ih]
      · by_cases hP : P (k0, v0) <;> simp [mapDelete, List.filter_cons, hk, hP, ih]

theorem dropAll_mirror : ∀ (ks : List String) (s : CacheState),
    (dropAll ks s).mirror = s.mirror.filter (fun kv => decide (kv.1 ∉ ks)) := by
  intro ks
  induction ks with
  | nil =>
      intro s
      rw [dropAll_nil]
      have : ∀ kv : String × CacheEntry, kv ∈ s.mirror →
          (decide (kv.1 ∉ ([] : List String))) = true := by
        intro kv _
        simp
      rw [List.filter_eq_self.mpr this]
  | cons k ks ih =>
      intro s
      rw [dropAll_cons, ih, dropKey_mirror, mapDelete_eq_filter]
      rw [List.filter_filter]
      apply List.filter_congr
      intro kv _
      by_cases h1 : kv.1 = k
      · simp [h1]
      · by_cases h2 : kv.1 ∈ ks <;> simp [h1, h2]

theorem dropKey_prefixCache (k : String) (s : CacheState) (p : String) :
    mapGet (dropKey k s).1.prefixKeysCache p =
      (mapGet s.prefixKeysCache p).map
        (fun c => if k.startsWith p then { c with valid := false } else c) := by
  show mapGet (s.prefixKeysCache.map
    (fun pc => if k.startsWith pc.1 then (pc.1, { pc.2 with valid := false }) else pc)) p = _
  have hform : (s.prefixKeysCache.map
      (fun pc => if k.startsWith pc.1 then (pc.1, { pc.2 with valid := false }) else pc)) =
      (s.prefixKeysCache.map (fun pc =>
        (pc.1, if k.startsWith pc.1 then { pc.2 with valid := false } else pc.2))) :=
    invalidateForKey_as_entry k s.prefixKeysCache
  rw [hform]
  rw [mapGet_map_of_fst_preserved (fun pc =>
    (pc.1, if k.startsWith pc.1 then { pc.2 with valid := false } else pc.2))
    (fun pc => rfl) s.prefixKeysCache p]

theorem dropKey_allKeys (k : String) (s : CacheState) :
    (dropKey k s).1.allKeysCache = { s.allKeysCache with valid := false } := rfl

theorem dropAll_prefixCache : ∀ (ks : List String) (s : CacheState) (p : String),
    mapGet (dropAll ks s).prefixKeysCache p =
      (mapGet s.prefixKeysCache p).map
        (fun c => if ks.any (fun k => k.startsWith p) then { c with valid := false } else c) := by
  intro ks
  induction ks with
  | nil =>
      intro s p
      rw [dropAll_nil]
      match hm : mapGet s.prefixKeysCache p with
      | none => rfl
      | some c => simp
  | cons k ks ih =>
      intro s p
      rw [dropAll_cons, ih, dropKey_prefixCache]
      match hm : mapGet s.prefixKeysCache p with
      | none => rfl
      | some c =>
          simp only [Option.map_some, Option.map_map, List.any_cons]
          by_cases h1 : k.startsWith p
          · by_cases h2 : ks.any (fun k2 => k2.startsWith p) <;>
              simp [h1, h2, Function.comp]
          · by_cases h2 : ks.any (fun k2 => k2.startsWith p) <;>
              simp [h1, h2, Function.comp]

theorem computeKeysLoop_spec (t : Nat) (pfx : Option String) :
    ∀ (rows : List (String × CacheEntry)) (s : CacheState),
    (computeKeysLoop t pfx rows s).1 =
      (rows.filter (fun kv => matchesPfx pfx kv.1 && isAlive t kv.2)).map Prod.fst ∧
    (computeKeysLoop t pfx rows s).2.1 =
      dropAll ((rows.filter
        (fun kv => matchesPfx pfx kv.1 && !isAlive t kv.2)).map Prod.fst) s := by
  intro rows
  induction rows with
  | nil => intro s; exact ⟨rfl, rfl⟩
  | cons row rest ih =>
      intro s
      rcases row with ⟨k, e⟩
      unfold computeKeysLoop
      by_cases hmk : matchesPfx pfx k = false
      · simp only [hmk, if_pos]
        obtain ⟨h1, h2⟩ := ih s
        refine ⟨?_, ?_⟩
        · rw [h1, List.filter_cons]
          simp [hmk]
        · rw [h2, List.filter_cons]
          simp [hmk]
      · have hmt : matchesPfx pfx k = true := by
          cases hx : matchesPfx pfx k
          · exact absurd hx hmk
          · rfl
        obtain ⟨h1a, h2a⟩ := ih s
        obtain ⟨h1b, h2b⟩ := ih (dropKey k s).1
        by_cases ha : isAlive t e
        · refine ⟨?_, ?_⟩
          · simp [hmt, ha, List.filter_cons, h1a]
          · simp [hmt, ha, List.filter_cons, h2a]
        · refine ⟨?_, ?_⟩
          · simp [hmt, ha, List.filter_cons, h1b]
          · simp [hmt, ha, List.filter_cons, h2b, dropAll_cons]

theorem prune_spec (t : Nat) : ∀ (l : List String) (s : CacheState),
    l.Nodup → (∀ k ∈ l, (mapGet s.mirror k).isSome) →
    (pruneListInPlace t l s).1 = l.filter (fun k => aliveK t s k) ∧
    (pruneListInPlace t l s).2.1 = dropAll (l.filter (fun k => !aliveK t s k)) s := by
  intro l
  induction l with
  | nil => intro s _ _; exact ⟨rfl, rfl⟩
  | cons k rest ih =>
      intro s hnd hpres
      have hnd2 := List.nodup_cons.mp hnd
      have hk : (mapGet s.mirror k).isSome := hpres k (by simp)
      match hm : mapGet s.mirror k with
      | none => rw [hm] at hk; simp at hk
      | some e =>
          have haK : aliveK t s k = isAlive t e := by
            unfold aliveK
            rw [hm]
          unfold pruneListInPlace
          rw [hm]
          by_cases ha : isAlive t e
          · obtain ⟨h1, h2⟩ := ih s hnd2.2 (fun k2 hk2 => hpres k2 (by simp [hk2]))
            refine ⟨?_, ?_⟩
            · simp [List.filter_cons, haK, ha, h1]
            · simp [List.filter_cons, haK, ha, h2]
          · have hpres2 : ∀ k2 ∈ rest, (mapGet (dropKey k s).1.mirror k2).isSome := by
              intro k2 hk2
              rw [dropKey_mirror, mapGet_mapDelete]
              rw [if_neg (by intro hx; subst hx; exact hnd2.1 hk2)]
              exact hpres k2 (by simp [hk2])
            have hsame : ∀ k2 ∈ rest, aliveK t (dropKey k s).1 k2 = aliveK t s k2 := by
              intro k2 hk2
              unfold aliveK
              rw [dropKey_mirror, mapGet_mapDelete]
              rw [if_neg (by intro hx; subst hx; exact hnd2.1 hk2)]
            obtain ⟨h1, h2⟩ := ih (dropKey k s).1 hnd2.2 hpres2
            have hfil1 : rest.filter (fun k2 => aliveK t (dropKey k s).1 k2) =
                rest.filter (fun k2 => aliveK t s k2) :=
              List.filter_congr (fun k2 hk2 => hsame k2 hk2)
            have hfil2 : rest.filter (fun k2 => !aliveK t (dropKey k s).1 k2) =
                rest.filter (fun k2 => !aliveK t s k2) :=
              List.filter_congr (fun k2 hk2 => by rw [hsame k2 hk2])
            simp only [ha, if_neg, Bool.false_eq_true, not_false_iff]
            refine ⟨?_, ?_⟩
            · rw [h1, hfil1, List.filter_cons]
              simp [haK, ha]
            · rw [h2, hfil2, List.filter_cons]
              simp only [haK, ha, Bool.not_false, if_pos]
              rw [dropAll_cons]

theorem mem_filter_fst_iff {α : Type} (m : List (String × α)) (P : String × α → Bool)
    (hnd : (m.map Prod.fst).Nodup) (kv : String × α) (hkv : kv ∈ m) :
    (kv.1 ∈ (m.filter P).map Prod.fst) ↔ P kv = true := by
  constructor
  · intro hmem
    rcases List.mem_map.mp hmem with ⟨kv2, hkv2, hfst⟩
    have hkv2m : kv2 ∈ m := (List.mem_filter.mp hkv2).1
    have heq : kv2 = kv := eq_of_fst_eq_of_nodup hnd hkv2m hkv hfst
    subst heq
    exact (List.mem_filter.mp hkv2).2
  · intro hP
    exact List.mem_map.mpr ⟨kv, List.mem_filter.mpr ⟨hkv, hP⟩, rfl⟩

theorem filter_map_fst {α : Type} (m : List (String × α)) (g : String → Bool) :
    (m.map Prod.fst).filter g = (m.filter (fun kv => g kv.1)).map Prod.fst := by
  induction m with
  | nil => rfl
  | cons hd tl ih =>
      rcases hd with ⟨k0, v0⟩
      by_cases hg : g k0 <;> simp [List.filter_cons, hg, ih]

theorem mapSet_of_not_mem {α : Type} (m : List (String × α)) (k : String) (v : α)
    (h : k ∉ m.map Prod.fst) : mapSet m k v = m ++ [(k, v)] := by
  induction m with
  | nil => rfl
  | cons hd tl ih =>
      rcases hd with ⟨k0, v0⟩
      simp only [List.map_cons, List.mem_cons] at h
      push_neg at h
      have hne : k0 ≠ k := fun hx => h.1 hx.symm
      simp [mapSet, hne, ih h.2]

theorem mem_mapSet_iff {α : Type} {m : List (String × α)} (k : String) (v : α)
    (hnd : (m.map Prod.fst).Nodup) (pc : String × α) :
    pc ∈ mapSet m k v ↔ pc = (k, v) ∨ (pc ∈ m ∧ pc.1 ≠ k) := by
  induction m with
  | nil =>
      simp [mapSet]
  | cons hd tl ih =>
      rcases hd with ⟨k0, v0⟩
      rw [List.map_cons] at hnd
      have hnd2 := List.nodup_cons.mp hnd
      by_cases hk : k0 = k
      · subst hk
        simp only [mapSet, if_pos]
        constructor
        · intro hmem
          rcases List.mem_cons.mp hmem with h0 | h0
          · exact Or.inl h0
          · refine Or.inr ⟨List.mem_cons_of_mem _ h0, ?_⟩
            intro hx
            exact hnd2.1 (hx ▸ List.mem_map.mpr ⟨pc, h0, rfl⟩)
        · intro hmem
          rcases hmem with h0 | ⟨h0, hne⟩
          · exact h0 ▸ List.mem_cons_self _ _
          · rcases List.mem_cons.mp h0 with h1 | h1
            · exact absurd (by rw [h1]) hne
            · exact List.mem_cons_of_mem _ h1
      · simp only [mapSet, hk, if_neg, not_false_iff]
        rw [List.mem_cons, ih hnd2.2, List.mem_cons]
        constructor
        · intro hmem
          rcases hmem with h0 | h0 | h0
          · refine Or.inr ⟨Or.inl h0, ?_⟩
            rw [h0]
            exact hk
          · exact Or.inl h0
          · exact Or.inr ⟨Or.inr h0.1, h0.2⟩
        · intro hmem
          rcases hmem with h0 | ⟨h0 | h0, hne⟩
          · exact Or.inr (Or.inl h0)
          · exact Or.inl h0
          · exact Or.inr (Or.inr ⟨h0, hne⟩)

theorem filter_aliveK_map_fst (t : Nat) (s : CacheState) (Q : String × CacheEntry → Bool)
    (hnd : (s.mirror.map Prod.fst).Nodup) :
    ((s.mirror.filter Q).map Prod.fst).filter (fun k => aliveK t s k) =
      (s.mirror.filter (fun kv => Q kv && isAlive t kv.2)).map Prod.fst := by
  rw [filter_map_fst, List.filter_filter]
  congr 1
  apply List.filter_congr
  intro kv hkv
  have hK : aliveK t s kv.1 = isAlive t kv.2 := by
    unfold aliveK
    rw [mapGet_of_mem hnd hkv]
  rw [hK, Bool.and_comm]

theorem filter_not_aliveK_map_fst (t : Nat) (s : CacheState) (Q : String × CacheEntry → Bool)
    (hnd : (s.mirror.map Prod.fst).Nodup) :
    ((s.mirror.filter Q).map Prod.fst).filter (fun k => !aliveK t s k) =
      (s.mirror.filter (fun kv => Q kv && !isAlive t kv.2)).map Prod.fst := by
  rw [filter_map_fst, List.filter_filter]
  congr 1
  apply List.filter_congr
  intro kv hkv
  have hK : aliveK t s kv.1 = isAlive t kv.2 := by
    unfold aliveK
    rw [mapGet_of_mem hnd hkv]
  rw [hK, Bool.and_comm]

theorem dropDead_mirror (t : Nat) (s : CacheState) (Q : String × CacheEntry → Bool)
    (hnd : (s.mirror.map Prod.fst).Nodup) :
    (dropAll ((s.mirror.filter
        (fun kv => Q kv && !isAlive t kv.2)).map Prod.fst) s).mirror =
      s.mirror.filter (fun kv => !(Q kv && !isAlive t kv.2)) := by
  rw [dropAll_mirror]
  apply List.filter_congr
  intro kv hkv
  have hmf := mem_filter_fst_iff s.mirror (fun kv2 => Q kv2 && !isAlive t kv2.2) hnd kv hkv
  by_cases hd : (Q kv && !isAlive t kv.2) = true
  · have hmem := hmf.mpr hd
    simp [hmem, hd]
  · have hmem : kv.1 ∉ (s.mirror.filter
        (fun kv2 => Q kv2 && !isAlive t kv2.2)).map Prod.fst := fun hx => hd (hmf.mp hx)
    simp only [Bool.not_eq_true] at hd
    simp [hmem, hd]

theorem CacheInv_set_allKeys (s1 : CacheState) (l : List String) (b : Bool)
    (h : CacheInv s1) (hl : l = s1.mirror.map Prod.fst) :
    CacheInv { s1 with allKeysCache := { keys := l, valid := b } } := by
  obtain ⟨i1, i2, _, i4⟩ := h
  refine ⟨i1, i2, ?_, ?_⟩
  · intro _
    exact hl
  · intro pc hpc hvv
    exact i4 pc hpc hvv

theorem getCachedKeysAll_spec (t : Nat) (s : CacheState) (h : CacheInv s) :
    (getCachedKeysAll t s).1 = liveMatching t none s ∧
    CacheInv (getCachedKeysAll t s).2.1 ∧
    (getCachedKeysAll t s).2.1.mirror = s.mirror.filter (fun kv => isAlive t kv.2) ∧
    (s.allKeysCache.valid = true →
      (getCachedKeysAll t s).1 = s.allKeysCache.keys.filter (fun k => aliveK t s k)) := by
  unfold getCachedKeysAll
  by_cases hv : s.allKeysCache.valid = false
  · rw [if_pos hv]
    obtain ⟨h1, h2⟩ := computeKeysLoop_spec t none s.mirror s
    have hs1 : CacheInv (computeKeysLoop t none s.mirror s).2.1 := by
      rw [h2]
      exact CacheInv_dropAll _ s h
    have hmir : (computeKeysLoop t none s.mirror s).2.1.mirror =
        s.mirror.filter (fun kv => isAlive t kv.2) := by
      rw [h2, dropDead_mirror t s (fun kv => matchesPfx none kv.1) h.1]
      apply List.filter_congr
      intro kv _
      simp [matchesPfx]
    have hl : (computeKeysLoop t none s.mirror s).1 =
        (s.mirror.filter (fun kv => isAlive t kv.2)).map Prod.fst := by
      rw [h1]
      congr 1
    refine ⟨h1, ?_, hmir, ?_⟩
    · exact CacheInv_set_allKeys (computeKeysLoop t none s.mirror s).2.1
        (computeKeysLoop t none s.mirror s).1 true hs1 (by rw [hl, hmir])
    · intro hx
      rw [hx] at hv
      simp at hv
  · rw [if_neg hv]
    have hvt : s.allKeysCache.valid = true := by
      cases hx : s.allKeysCache.valid
      · exact absurd hx hv
      · rfl
    have hkeys : s.allKeysCache.keys = s.mirror.map Prod.fst := h.2.2.1 hvt
    have hknd : s.allKeysCache.keys.Nodup := by
      rw [hkeys]
      exact h.1
    have hpres : ∀ k ∈ s.allKeysCache.keys, (mapGet s.mirror k).isSome := by
      intro k hk
      rw [hkeys] at hk
      cases hg : mapGet s.mirror k
      · exact absurd hk ((mapGet_eq_none_iff s.mirror k).mp hg)
      · rfl
    obtain ⟨h1, h2⟩ := prune_spec t s.allKeysCache.keys s hknd hpres
    have hk0 : s.allKeysCache.keys = (s.mirror.filter (fun _ => true)).map Prod.fst := by
      rw [List.filter_true, hkeys]
    have hl : (pruneListInPlace t s.allKeysCache.keys s).1 =
        (s.mirror.filter (fun kv => isAlive t kv.2)).map Prod.fst := by
      rw [h1, hk0, filter_aliveK_map_fst t s (fun _ => true) h.1]
      congr 1
    have hmir : (pruneListInPlace t s.allKeysCache.keys s).2.1.mirror =
        s.mirror.filter (fun kv => isAlive t kv.2) := by
      rw [h2, hk0, filter_not_aliveK_map_fst t s (fun _ => true) h.1,
        dropDead_mirror t s (fun _ => true) h.1]
      apply List.filter_congr
      intro kv _
      simp
    have hs1 : CacheInv (pruneListInPlace t s.allKeysCache.keys s).2.1 := by
      rw [h2]
      exact CacheInv_dropAll _ s h
    refine ⟨?_, ?_, hmir, ?_⟩
    · show (pruneListInPlace t s.allKeysCache.keys s).1 = _
      rw [hl]
      unfold liveMatching
      congr 1
    · exact CacheInv_set_allKeys (pruneListInPlace t s.allKeysCache.keys s).2.1
        (pruneListInPlace t s.allKeysCache.keys s).1
        (pruneListInPlace t s.allKeysCache.keys s).2.1.allKeysCache.valid hs1
        (by rw [hl, hmir])
    · intro _
      exact h1

theorem CacheInv_set_pfxCache (s1 : CacheState) (p : String) (l : List String) (b : Bool)
    (h : CacheInv s1)
    (hl : b = true → l = (s1.mirror.filter (fun kv => kv.1.startsWith p)).map Prod.fst) :
    CacheInv { s1 with prefixKeysCache :=
      (mapSet s1.prefixKeysCache p { keys := l, valid := b }) } := by
  obtain ⟨i1, i2, i3, i4⟩ := h
  refine ⟨i1, nodup_fst_mapSet _ _ _ i2, i3, ?_⟩
  intro pc hpc hvv
  rcases (mem_mapSet_iff p { keys := l, valid := b } i2 pc).mp hpc with h0 | ⟨h0, _⟩
  · subst h0
    exact hl hvv
  · exact i4 pc h0 hvv

theorem computeValidate_spec (t : Nat) (p : String) (sy : CacheState) (h : CacheInv sy) :
    (computeKeysForPfx t (some p) sy).1 = liveMatching t (some p) sy ∧
    CacheInv { (computeKeysForPfx t (some p) sy).2.1 with prefixKeysCache :=
      (mapSet (computeKeysForPfx t (some p) sy).2.1.prefixKeysCache p
        { keys := (computeKeysForPfx t (some p) sy).1, valid := true }) } ∧
    (computeKeysForPfx t (some p) sy).2.1.mirror =
      sy.mirror.filter (fun kv => !(kv.1.startsWith p && !isAlive t kv.2)) := by
  obtain ⟨h1, h2⟩ := computeKeysLoop_spec t (some p) sy.mirror sy
  have hs1 : CacheInv (computeKeysForPfx t (some p) sy).2.1 := by
    show CacheInv (computeKeysLoop t (some p) sy.mirror sy).2.1
    rw [h2]
    exact CacheInv_dropAll _ sy h
  have hmir : (computeKeysForPfx t (some p) sy).2.1.mirror =
      sy.mirror.filter (fun kv => !(kv.1.startsWith p && !isAlive t kv.2)) := by
    show (computeKeysLoop t (some p) sy.mirror sy).2.1.mirror = _
    rw [h2, dropDead_mirror t sy (fun kv => matchesPfx (some p) kv.1) h.1]
    apply List.filter_congr
    intro kv _
    simp [matchesPfx]
  have hl : (computeKeysForPfx t (some p) sy).1 =
      (sy.mirror.filter (fun kv => kv.1.startsWith p && isAlive t kv.2)).map Prod.fst := h1
  refine ⟨h1, ?_, hmir⟩
  apply CacheInv_set_pfxCache _ p _ true hs1
  intro _
  rw [hl, hmir, List.filter_filter]
  congr 1
  apply List.filter_congr
  intro kv _
  by_cases ha : kv.1.startsWith p <;> by_cases hb : isAlive t kv.2 <;> simp [ha, hb]

theorem getCachedKeysPfx_spec (t : Nat) (p : String) (s : CacheState) (h : CacheInv s) :
    (getCachedKeysPfx t p s).1 = liveMatching t (some p) s ∧
    CacheInv (getCachedKeysPfx t p s).2.1 ∧
    (getCachedKeysPfx t p s).2.1.mirror =
      s.mirror.filter (fun kv => !(kv.1.startsWith p && !isAlive t kv.2)) ∧
    (∀ c, mapGet s.prefixKeysCache p = some c → c.valid = true →
      (getCachedKeysPfx t p s).1 = c.keys.filter (fun k => aliveK t s k)) := by
  unfold getCachedKeysPfx
  match hc : mapGet s.prefixKeysCache p with
  | none =>
      dsimp only
      have hS0 : CacheInv { s with prefixKeysCache :=
          (mapSet s.prefixKeysCache p { keys := [], valid := false }) } :=
        CacheInv_set_pfxCache s p [] false h (fun hvv => absurd hvv (by decide))
      obtain ⟨c1, c2, c3⟩ := computeValidate_spec t p _ hS0
      refine ⟨c1, c2, c3, ?_⟩
      intro cx hco
      simp at hco
  | some c =>
      dsimp only
      by_cases hcv : c.valid = false
      · rw [if_pos hcv]
        dsimp only
        obtain ⟨c1, c2, c3⟩ := computeValidate_spec t p s h
        refine ⟨c1, c2, c3, ?_⟩
        intro c2x hc2 hv2
        injection hc2 with he
        subst he
        rw [hcv] at hv2
        simp at hv2
      · rw [if_neg hcv]
        dsimp only
        have hcvt : c.valid = true := by
          cases hcb : c.valid
          · exact absurd hcb hcv
          · rfl
        have hmem : (p, c) ∈ s.prefixKeysCache := mem_of_mapGet_eq_some hc
        have hkeys : c.keys =
            (s.mirror.filter (fun kv => kv.1.startsWith p)).map Prod.fst :=
          h.2.2.2 (p, c) hmem hcvt
        have hsub : ((s.mirror.filter (fun kv => kv.1.startsWith p)).map Prod.fst).Sublist
            (s.mirror.map Prod.fst) :=
          List.Sublist.map Prod.fst (List.filter_sublist s.mirror)
        have hnd : c.keys.Nodup := by
          rw [hkeys]
          exact List.Nodup.sublist hsub h.1
        have hpres : ∀ k ∈ c.keys, (mapGet s.mirror k).isSome := by
          intro k hk
          rw [hkeys] at hk
          rcases List.mem_map.mp hk with ⟨kv, hkvmem, rfl⟩
          rw [mapGet_of_mem h.1 (List.mem_filter.mp hkvmem).1]
          rfl
        obtain ⟨p1, p2⟩ := prune_spec t c.keys s hnd hpres
        have hks : c.keys.filter (fun k => !aliveK t s k) =
            (s.mirror.filter (fun kv => kv.1.startsWith p && !isAlive t kv.2)).map Prod.fst := by
          rw [hkeys]
          exact filter_not_aliveK_map_fst t s (fun kv => kv.1.startsWith p) h.1
        have hmir1 : (pruneListInPlace t c.keys s).2.1.mirror =
            s.mirror.filter (fun kv => !(kv.1.startsWith p && !isAlive t kv.2)) := by
          rw [p2, hks]
          exact dropDead_mirror t s (fun kv => kv.1.startsWith p) h.1
        have hinv1 : CacheInv (pruneListInPlace t c.keys s).2.1 := by
          rw [p2]
          exact CacheInv_dropAll _ s h
        have hres : (pruneListInPlace t c.keys s).1 =
            (s.mirror.filter (fun kv => kv.1.startsWith p && isAlive t kv.2)).map Prod.fst := by
          rw [p1, hkeys]
          exact filter_aliveK_map_fst t s (fun kv => kv.1.startsWith p) h.1
        have hlX : (pruneListInPlace t c.keys s).1 =
            ((pruneListInPlace t c.keys s).2.1.mirror.filter
              (fun kv => kv.1.startsWith p)).map Prod.fst := by
          rw [hres, hmir1, List.filter_filter]
          congr 1
          apply List.filter_congr
          intro kv _
          by_cases ha : kv.1.startsWith p <;> by_cases hb : isAlive t kv.2 <;> simp [ha, hb]
        have hgot : mapGet (pruneListInPlace t c.keys s).2.1.prefixKeysCache p =
            some (if (c.keys.filter (fun k => !aliveK t s k)).any
                (fun k2 => k2.startsWith p) then { c with valid := false } else c) := by
          rw [p2, dropAll_prefixCache, hc]
          rfl
        rw [hgot]
        refine ⟨?_, ?_, hmir1, ?_⟩
        · rw [hres]
          unfold liveMatching
          apply congrArg
          apply List.filter_congr
          intro kv _
          simp [matchesPfx]
        · exact CacheInv_set_pfxCache (pruneListInPlace t c.keys s).2.1 p
            (pruneListInPlace t c.keys s).1 _ hinv1 (fun _ => hlX)
        · intro c2x hc2 hv2
          injection hc2 with he
          subst he
          exact p1

theorem emitAll_fields : ∀ (ks : List String) (s : CacheState),
    (emitAll ks s).1.mirror = s.mirror ∧
    (emitAll ks s).1.allKeysCache = s.allKeysCache ∧
    (emitAll ks s).1.prefixKeysCache = s.prefixKeysCache := by
  intro ks
  induction ks with
  | nil => intro s; exact ⟨rfl, rfl, rfl⟩
  | cons k ks ih =>
      intro s
      obtain ⟨q1, q2, q3⟩ := queueEmitKey_fields k s
      obtain ⟨e1, e2, e3⟩ := ih (queueEmitKey k s).1
      rw [emitAll_cons]
      refine ⟨?_, ?_, ?_⟩ <;> dsimp only
      · rw [e1, q1]
      · rw [e2, q2]
      · rw [e3, q3]

theorem CacheInv_emitAll (ks : List String) (s : CacheState) (h : CacheInv s) :
    CacheInv (emitAll ks s).1 := by
  obtain ⟨e1, e2, e3⟩ := emitAll_fields ks s
  exact CacheInv_of_same s _ e1 e2 e3 h

theorem foldl_mapDelete {α : Type} : ∀ (ks : List String) (m : List (String × α)),
    ks.foldl (fun m2 k => mapDelete m2 k) m =
      m.filter (fun kv => decide (kv.1 ∉ ks)) := by
  intro ks
  induction ks with
  | nil =>
      intro m
      simp
  | cons k ks ih =>
      intro m
      rw [List.foldl_cons, ih (mapDelete m k), mapDelete_eq_filter, List.filter_filter]
      apply List.filter_congr
      intro kv _
      by_cases h1 : kv.1 = k <;> by_cases h2 : kv.1 ∈ ks <;> simp [h1, h2]

theorem CacheInv_clearAllMid (t : Nat) (s : CacheState) (h : CacheInv s) :
    CacheInv (clearAllMid t s) := by
  obtain ⟨_, hinv, _, _⟩ := getCachedKeysAll_spec t s h
  obtain ⟨i1, i2, _, _⟩ := hinv
  unfold clearAllMid CacheInv
  dsimp only
  refine ⟨?_, ?_, ?_, ?_⟩
  · rw [foldl_mapDelete]
    exact List.Nodup.sublist (List.Sublist.map Prod.fst (List.filter_sublist _)) i1
  · rw [map_fst_of_fst_preserved
      (fun pc : String × KeyListCache => (pc.1, { pc.2 with valid := false }))
      (fun pc => rfl)]
    exact i2
  · intro hfalse
    exact absurd hfalse (by decide)
  · intro pc hpc hval
    rcases List.mem_map.mp hpc with ⟨pc0, _, rfl⟩
    simp at hval

theorem CacheInv_storeClearAll (t : Nat) (s : CacheState) (h : CacheInv s) :
    CacheInv (storeClearAll t s).1 := by
  rw [storeClearAll_eq]
  exact CacheInv_emitAll _ _ (CacheInv_clearAllMid t s h)

theorem invalPfxFold_eq : ∀ (ks : List String) (s : CacheState),
    ks.foldl (fun acc k => invalidatePrefixCachesForKey k acc) s =
      { s with prefixKeysCache := (s.prefixKeysCache.map
               (fun pc => if ks.any (fun k => k.startsWith pc.1) then
                 (pc.1, { pc.2 with valid := false }) else pc)) } := by
  intro ks
  induction ks with
  | nil =>
      intro s
      show s = _
      have hmap : s.prefixKeysCache.map
          (fun pc => if List.any ([] : List String) (fun k => k.startsWith pc.1) then
            (pc.1, { pc.2 with valid := false }) else pc) = s.prefixKeysCache := by
        simp
      rw [hmap]
  | cons k ks ih =>
      intro s
      rw [List.foldl_cons, ih (invalidatePrefixCachesForKey k s)]
      unfold invalidatePrefixCachesForKey
      dsimp only
      rw [List.map_map]
      have hmap : ∀ pc : String × KeyListCache,
          ((fun pc2 : String × KeyListCache =>
              if ks.any (fun k2 => k2.startsWith pc2.1) then
                (pc2.1, { pc2.2 with valid := false }) else pc2) ∘
            (fun pc2 : String × KeyListCache =>
              if k.startsWith pc2.1 then (pc2.1, { pc2.2 with valid := false })
              else pc2)) pc =
          (if (k :: ks).any (fun k2 => k2.startsWith pc.1) then
            (pc.1, { pc.2 with valid := false }) else pc) := by
        intro pc
        rcases pc with ⟨q, kl, vb⟩
        by_cases h1 : k.startsWith q <;> by_cases h2 : ks.any (fun k2 => k2.startsWith q) <;>
          simp [Function.comp, h1, h2]
      rw [List.map_congr_left (fun pc _ => hmap pc)]

theorem CacheInv_clearCore (ks : List String) (p : String) (s1 : CacheState)
    (h : CacheInv s1) :
    CacheInv (ks.foldl (fun acc k => invalidatePrefixCachesForKey k acc)
      (invalidatePfxCacheOne p (invalidateAllKeysCache
        { s1 with mirror := ks.foldl (fun m k => mapDelete m k) s1.mirror }))) := by
  obtain ⟨i1, i2, i3, i4⟩ := h
  rw [invalPfxFold_eq]
  unfold invalidatePfxCacheOne invalidateAllKeysCache CacheInv
  dsimp only
  refine ⟨?_, ?_, ?_, ?_⟩
  · rw [foldl_mapDelete]
    exact List.Nodup.sublist (List.Sublist.map Prod.fst (List.filter_sublist _)) i1
  · rw [map_fst_of_fst_preserved
      (fun pc : String × KeyListCache =>
        if ks.any (fun k => k.startsWith pc.1) then
          (pc.1, { pc.2 with valid := false }) else pc)
      (fun pc => by by_cases hh : ks.any (fun k => k.startsWith pc.1) <;> simp [hh])]
    rw [map_fst_of_fst_preserved
      (fun pc : String × KeyListCache =>
        if pc.1 = p then (pc.1, { pc.2 with valid := false }) else pc)
      (fun pc => by by_cases hh : pc.1 = p <;> simp [hh])]
    exact i2
  · intro hfalse
    exact absurd hfalse (by decide)
  · intro pc hpc hval
    rcases List.mem_map.mp hpc with ⟨pc1, hpc1, rfl⟩
    rcases List.mem_map.mp hpc1 with ⟨pc0, hpc0, rfl⟩
    rcases pc0 with ⟨q, c⟩
    by_cases h1 : q = p
    · by_cases h2 : ks.any (fun k => k.startsWith q) <;> simp [h1, h2] at hval
    · by_cases h2 : ks.any (fun k => k.startsWith q)
      · simp [h1, h2] at hval
      · rw [if_neg h1] at hval ⊢
        rw [if_neg h2] at hval ⊢
        dsimp only at hval ⊢
        have hkeys := i4 (q, c) hpc0 hval
        dsimp only at hkeys
        rw [hkeys, foldl_mapDelete, List.filter_filter]
        congr 1
        apply List.filter_congr
        intro kv _
        by_cases hsw : kv.1.startsWith q
        · have hnot : kv.1 ∉ ks := fun hmm => h2 (List.any_eq_true.mpr ⟨kv.1, hmm, hsw⟩)
          simp [hsw, hnot]
        · simp [hsw]

theorem CacheInv_clearPfxMid (t : Nat) (p : String) (s : CacheState) (h : CacheInv s) :
    CacheInv (clearPfxMid t p s) := by
  obtain ⟨_, hinv, _, _⟩ := getCachedKeysPfx_spec t p s h
  show CacheInv ((getCachedKeysPfx t p s).1.foldl
      (fun acc k => invalidatePrefixCachesForKey k acc)
      (invalidatePfxCacheOne p (invalidateAllKeysCache
        { (getCachedKeysPfx t p s).2.1 with mirror :=
            ((getCachedKeysPfx t p s).1.foldl (fun m k => mapDelete m k)
              (getCachedKeysPfx t p s).2.1.mirror) })))
  exact CacheInv_clearCore _ p _ hinv

theorem CacheInv_storeClearPfx (t : Nat) (p : String) (s : CacheState) (h : CacheInv s) :
    CacheInv (storeClearPfx t p s).1 := by
  rw [storeClearPfx_eq]
  exact CacheInv_emitAll _ _ (CacheInv_clearPfxMid t p s h)

theorem CacheInv_storeClear (t : Nat) (pfx : Option String) (s : CacheState)
    (h : CacheInv s) : CacheInv (storeClear t pfx s).1 := by
  unfold storeClear
  match pfx with
  | none => exact CacheInv_storeClearAll t s h
  | some p =>
      dsimp only
      by_cases hp : p = ""
      · rw [if_pos hp]
        exact CacheInv_storeClearAll t s h
      · rw [if_neg hp]
        exact CacheInv_storeClearPfx t p s h

theorem startsWith_empty (s : String) : s.startsWith "" = true := by
  have h2 : String.substrEq s 0 "" 0 0 = true := by
    unfold String.substrEq
    rw [String.substrEq.loop]
    simp
  show Substring.beq ⟨s, 0, 0⟩ ⟨"", 0, 0⟩ = true
  unfold Substring.beq
  simp [Substring.bsize, h2]

theorem getCachedKeys_spec (t : Nat) (pfx : Option String) (s : CacheState)
    (h : CacheInv s) :
    (getCachedKeys t pfx s).1 = liveMatching t pfx s ∧
    CacheInv (getCachedKeys t pfx s).2.1 := by
  unfold getCachedKeys
  match pfx with
  | none =>
      obtain ⟨c1, c2, _, _⟩ := getCachedKeysAll_spec t s h
      exact ⟨c1, c2⟩
  | some p =>
      dsimp only
      by_cases hp : p = ""
      · rw [if_pos hp]
        obtain ⟨c1, c2, _, _⟩ := getCachedKeysAll_spec t s h
        subst hp
        refine ⟨?_, c2⟩
        rw [c1]
        unfold liveMatching
        apply congrArg
        apply List.filter_congr
        intro kv _
        simp [matchesPfx, startsWith_empty]
      · rw [if_neg hp]
        obtain ⟨c1, c2, _, _⟩ := getCachedKeysPfx_spec t p s h
        exact ⟨c1, c2⟩

theorem CacheInv_queueEmitKey (k : String) (s : CacheState) (h : CacheInv s) :
    CacheInv (queueEmitKey k s).1 := by
  obtain ⟨q1, q2, q3⟩ := queueEmitKey_fields k s
  exact CacheInv_of_same s _ q1 q2 q3 h

theorem CacheInv_storeGet (t : Nat) (k : String) (s : CacheState) (h : CacheInv s) :
    CacheInv (storeGet t k s).2.1 := by
  unfold storeGet
  have h1 := CacheInv_getEntry t k s h
  rcases hE : getEntry t k s with ⟨eo, s1, evs⟩
  rw [hE] at h1
  match eo with
  | some e => exact h1
  | none => exact h1

theorem CacheInv_storeHas (t : Nat) (k : String) (s : CacheState) (h : CacheInv s) :
    CacheInv (storeHas t k s).2.1 := by
  unfold storeHas
  have h1 := CacheInv_getEntry t k s h
  rcases hE : getEntry t k s with ⟨eo, s1, evs⟩
  rw [hE] at h1
  match eo with
  | some e => exact h1
  | none => exact h1

theorem CacheInv_storeTouch (t : Nat) (k : String) (ttl : Option Int) (s : CacheState)
    (h : CacheInv s) : CacheInv (storeTouch t k ttl s).1 := by
  unfold storeTouch
  have h1 := CacheInv_getEntry t k s h
  rcases hE : getEntry t k s with ⟨eo, s1, evs⟩
  rw [hE] at h1
  match eo with
  | none => exact h1
  | some e =>
      dsimp only
      exact CacheInv_setInternal k _ s1 h1

theorem CacheInv_flushIfZero (s : CacheState) (h : CacheInv s) :
    CacheInv (flushIfZero s).1 := by
  unfold flushIfZero
  by_cases h0 : s.batchDepth = 0
  · rw [if_pos h0]
    dsimp only
    by_cases hp : s.pendingReadyEmit
    · rw [if_pos hp]
      exact CacheInv_of_same s _ rfl rfl rfl h
    · rw [if_neg hp]
      exact CacheInv_of_same s _ rfl rfl rfl h
  · rw [if_neg h0]
    exact h

theorem CacheInv_getCachedKeys (t : Nat) (pfx : Option String) (s : CacheState)
    (h : CacheInv s) : CacheInv (getCachedKeys t pfx s).2.1 :=
  (getCachedKeys_spec t pfx s h).2

theorem CacheInv_runAct (a : Act) (s : CacheState) (h : CacheInv s) :
    CacheInv (runAct a s).1 := by
  match a with
  | .setA t k v ttl => exact CacheInv_setInternal k _ s h
  | .removeA k => exact CacheInv_setInternal k _ s h
  | .clearA t pfx => exact CacheInv_storeClear t pfx s h
  | .keysA t pfx => exact CacheInv_getCachedKeys t pfx s h
  | .getA t k => exact CacheInv_storeGet t k s h
  | .hasA t k => exact CacheInv_storeHas t k s h
  | .touchA t k ttl => exact CacheInv_storeTouch t k ttl s h
  | .emitA k => exact CacheInv_queueEmitKey k s h
  | .enterBatch => exact CacheInv_of_same s _ rfl rfl rfl h
  | .exitBatch => exact CacheInv_flushIfZero _ (CacheInv_of_same s _ rfl rfl rfl h)

theorem CacheInv_runActs : ∀ (acts : List Act) (s : CacheState), CacheInv s →
    CacheInv (runActs acts s).1 := by
  intro acts
  induction acts with
  | nil => intro s h; exact h
  | cons a rest ih =>
      intro s h
      rw [runActs_cons]
      exact ih _ (CacheInv_runAct a s h)

/-- C1: starting from any coherent state, after any sequence of engine actions
(set/remove/clear interleaved with keys calls and any other store operations)
the state stays coherent, a keys(prefix) call — any prefix, or none — returns
exactly the currently-live keys matching the prefix in mirror insertion order,
and when that call prunes an already-valid cached list the result is the cached
list filtered in place to its alive keys, so the surviving keys keep their
original relative order. -/
theorem keys_cache_consistency (acts : List Act) (s0 : CacheState) (h : CacheInv s0)
    (t : Nat) (pfx : Option String) :
    CacheInv (runActs acts s0).1 ∧
    (getCachedKeys t pfx (runActs acts s0).1).1 =
      liveMatching t pfx (runActs acts s0).1 ∧
    (∀ p c, pfx = some p → p ≠ "" →
      mapGet (runActs acts s0).1.prefixKeysCache p = some c → c.valid = true →
      (getCachedKeys t pfx (runActs acts s0).1).1 =
        c.keys.filter (fun k => aliveK t (runActs acts s0).1 k)) := by
  have hI := CacheInv_runActs acts s0 h
  obtain ⟨g1, g2⟩ := getCachedKeys_spec t pfx (runActs acts s0).1 hI
  refine ⟨hI, g1, ?_⟩
  intro p c hpfx hp hmg hval
  subst hpfx
  have hEq : getCachedKeys t (some p) (runActs acts s0).1 =
      getCachedKeysPfx t p (runActs acts s0).1 := by
    unfold getCachedKeys
    dsimp only
    rw [if_neg hp]
  rw [hEq]
  obtain ⟨_, _, _, c4⟩ := getCachedKeysPfx_spec t p (runActs acts s0).1 hI
  exact c4 c hmg hval

/-- A driver with every optional capability, for concrete instantiations. -/
def capsAll : DriverCaps := { hasGetMany := true, hasRemoveMany := true, hasClearPfx := true }

/-- The action sequence used to instantiate the key-list consistency theorem. -/
def wActs : List Act :=
  [Act.setA 0 "ab" (some 1) (some 5), Act.setA 0 "b" (some 2) none,
   Act.keysA 3 (some "a"), Act.setA 4 "ac" (some 3) none, Act.removeA "b"]

theorem keys_cache_consistency_witness :
    CacheInv (initState capsAll) ∧
    CacheInv (runActs wActs (initState capsAll)).1 ∧
    (getCachedKeys 10 (some "a") (runActs wActs (initState capsAll)).1).1 =
      liveMatching 10 (some "a") (runActs wActs (initState capsAll)).1 :=
  ⟨by decide,
   (keys_cache_consistency wActs (initState capsAll) (by decide) 10 (some "a")).1,
   (keys_cache_consistency wActs (initState capsAll) (by decide) 10 (some "a")).2.1⟩

/-- A state holding key "u" with a stored value of undefined: JS code can
store undefined as a value, and the mirror keeps the entry. -/
def undefState : CacheState := (storeSet 0 "u" none none (initState capsAll)).1

/-- C4 counterexample: when undefined has been stored as a value, has returns
true while get returns undefined, so "has(key) = true exactly when get(key)
is not undefined" fails. -/
theorem has_get_counterexample :
    (storeHas 5 "u" undefState).1 = true ∧ (storeGet 5 "u" undefState).1 = none := by
  decide

/-- C4 (amended): has(key) and get(key) always run the same getEntry path, so
they perform the identical lazy-expiry eviction side effects — the same
post-state and the same emitted events; and whenever the key's stored value is
not undefined, has(key) returns true exactly when get(key) returns a value
different from undefined.  The unamended equivalence is refuted by
has_get_counterexample: an entry whose stored value is undefined makes has
return true while get returns undefined. -/
theorem has_get_agree (t : Nat) (k : String) (s : CacheState) :
    (storeHas t k s).2 = (storeGet t k s).2 ∧
    ((∀ e, mapGet s.mirror k = some e → e.value ≠ none) →
      ((storeHas t k s).1 = true ↔ (storeGet t k s).1 ≠ none)) := by
  constructor
  · unfold storeHas storeGet
    rcases hE : getEntry t k s with ⟨eo, s1, evs⟩
    match eo with
    | some e => rfl
    | none => rfl
  · intro hv
    unfold storeHas storeGet getEntry
    match hm : mapGet s.mirror k with
    | none => simp
    | some e =>
        by_cases ha : isAlive t e
        · simp only [ha, if_true]
          simp [hv e hm]
        · simp [ha]

/-- A state holding key "e" with the defined value 7. -/
def exState1 : CacheState := (storeSet 0 "e" (some 7) none (initState capsAll)).1

theorem has_get_agree_witness :
    (storeHas 5 "e" exState1).2 = (storeGet 5 "e" exState1).2 ∧
    ((storeHas 5 "e" exState1).1 = true ↔ (storeGet 5 "e" exState1).1 ≠ none) :=
  ⟨(has_get_agree 5 "e" exState1).1, (has_get_agree 5 "e" exState1).2 (by decide)⟩

/-- A state holding key "d" with ttl 5 created at time 0: dead from time 5 on. -/
def deadState : CacheState := (storeSet 0 "d" (some 1) (some 5) (initState capsAll)).1

/-- C6 counterexample: touch on a present-but-dead key is not a no-op — the
getEntry call inside touch evicts the dead entry, mutating the state. -/
theorem touch_dead_not_noop :
    (storeTouch 10 "d" none deadState).1 ≠ deadState ∧
    (storeTouch 10 "d" none deadState).1.mirror = [] := by
  decide

theorem set_nonpos_ttl_is_remove_witness :
    (-1 : Int) ≤ 0 ∧
    storeSet 5 "x" (some 3) (some (-1)) exState1 = storeRemove "x" exState1 :=
  ⟨by decide, (set_nonpos_ttl_is_remove 5 "x" (some 3) (-1) (by decide) exState1).1⟩

theorem touch_spec_witness :
    mapGet exState1.mirror "z" = none ∧
    storeTouch 5 "z" none exState1 = (exState1, []) :=
  ⟨by decide, (touch_spec 5 "z" none exState1).1 (by decide)⟩

theorem expired_get_evicts_witness :
    mapGet deadState.mirror "d" =
      some { value := some 1, createdAt := 0, ttlMs := some 5 } ∧
    (storeGet 10 "d" deadState).1 = none ∧
    (storeGet 10 "d" deadState).2.2 = [Ev.drvRemove "d"] :=
  ⟨by decide,
   (expired_get_evicts 10 "d" deadState
     { value := some 1, createdAt := 0, ttlMs := some 5 } 5
     (by decide) (by decide) (by decide) (by decide)).1,
   (expired_get_evicts 10 "d" deadState
     { value := some 1, createdAt := 0, ttlMs := some 5 } 5
     (by decide) (by decide) (by decide) (by decide)).2.2.2.1⟩

/-- One fetch in flight for key "k" with id 0 over an empty cache. -/
def asyncEx : AsyncState :=
  { cache := initState capsAll, inFlight := [("k", 0)], nextFetchId := 1 }

theorem force_joins_inflight_witness :
    mapGet asyncEx.inFlight "k" = some 0 ∧
    gosaCall 5 "k" true asyncEx = (GosaResult.joined 0, asyncEx, []) :=
  ⟨by decide, force_joins_inflight 5 "k" asyncEx 0 (by decide)⟩

theorem fetcher_failure_clears_inflight_witness :
    mapGet asyncEx.inFlight "k" = some 0 ∧
    noLiveValue 7 "k" asyncEx.cache = true ∧
    gosaSettle 3 "k" none asyncEx =
      ({ asyncEx with inFlight := mapDelete asyncEx.inFlight "k" }, []) ∧
    (gosaCall 7 "k" false (gosaSettle 3 "k" none asyncEx).1).1 =
      GosaResult.started asyncEx.nextFetchId :=
  ⟨by decide, by decide,
   (fetcher_failure_clears_inflight 3 7 "k" asyncEx 0 (by decide) (by decide)).1,
   (fetcher_failure_clears_inflight 3 7 "k" asyncEx 0 (by decide) (by decide)).2.2.2.1⟩

/-- No fetch in flight and an empty cache. -/
def asyncEx2 : AsyncState :=
  { cache := initState capsAll, inFlight := [], nextFetchId := 0 }

theorem inflight_dedup_witness :
    (runCalls (0 :: [1, 2]) "k" asyncEx2).1 =
      GosaResult.started asyncEx2.nextFetchId ::
        List.map (fun _ => GosaResult.joined asyncEx2.nextFetchId) [1, 2] ∧
    (runCalls (0 :: [1, 2]) "k" asyncEx2).2.1.nextFetchId = asyncEx2.nextFetchId + 1 ∧
    mapGet (runCalls (0 :: [1, 2]) "k" asyncEx2).2.1.inFlight "k" =
      some asyncEx2.nextFetchId :=
  ⟨(inflight_dedup "k" 0 [1, 2] asyncEx2 (by simp) (by decide) (by decide)).1,
   (inflight_dedup "k" 0 [1, 2] asyncEx2 (by simp) (by decide) (by decide)).2.1,
   (inflight_dedup "k" 0 [1, 2] asyncEx2 (by simp) (by decide) (by decide)).2.2.1⟩

/-- A batch body touching "a" twice and "b" once. -/
def bActs : List Act :=
  [Act.setA 0 "a" (some 1) none, Act.setA 0 "b" (some 2) none,
   Act.removeA "a", Act.setA 0 "a" (some 3) none]

theorem batch_coalesces_and_flushes_witness :
    (initState capsAll).batchDepth = 0 ∧
    nestOK bActs 0 = true ∧
    (storeBatch bActs (initState capsAll)).1.batchDepth = 0 ∧
    (storeBatch bActs (initState capsAll)).1.pendingKeys = [] ∧
    (runActs bActs { initState capsAll with
      batchDepth := (initState capsAll).batchDepth + 1 }).1.pendingKeys.Nodup :=
  ⟨by decide, by decide,
   (batch_coalesces_and_flushes bActs (initState capsAll) (by decide) (by decide)
     (by decide)).1,
   (batch_coalesces_and_flushes bActs (initState capsAll) (by decide) (by decide)
     (by decide)).2.1,
   (batch_coalesces_and_flushes bActs (initState capsAll) (by decide) (by decide)
     (by decide)).2.2.2.1⟩

/-- One hydration row with a live entry. -/
def rowsW : List (String × Option CacheEntry) :=
  [("r", some { value := some 1, createdAt := 0, ttlMs := none })]

theorem readiness_settles_once_witness :
    (initState capsAll).settled = none ∧
    (hydrateBoot 0 rowsW true true (initState capsAll)).1.ready = true ∧
    (hydrateBoot 0 rowsW true true (initState capsAll)).1.settled = some true ∧
    (hydrateBoot 0 rowsW true true (initState capsAll)).2.count Ev.emitReady = 1 :=
  ⟨by decide,
   (readiness_settles_once 0 rowsW true true (initState capsAll)
     (by decide) (by decide) (by decide) (by decide)).1,
   (readiness_settles_once 0 rowsW true true (initState capsAll)
     (by decide) (by decide) (by decide) (by decide)).2.1,
   (readiness_settles_once 0 rowsW true true (initState capsAll)
     (by decide) (by decide) (by decide) (by decide)).2.2.1⟩
